import Mathlib

/-!
Verification development for a trigram inverted index (Go package `trigram`).

The Go code is shallowly embedded:
* a Go `string` is a `List Byte` (`Byte := Fin 256`);
* a trigram `T` (Go `uint32`) is a `Nat`; packed trigram values are below
  `2^24`, so no `uint32` overflow can occur and `Nat` is exact;
* a document ID (Go `uint32`) is a `Nat`; document IDs are only ever
  compared and stored, never subject to wrapping arithmetic;
* a Go slice value `[]DocID` is `GoSlice := Option (List DocID)`, where
  `none` is the nil slice (Go distinguishes nil slices from non-nil empty
  slices via `d == nil`, and the code relies on that distinction);
* the Go map `Index = map[T][]DocID` is an association list
  `List (T × GoSlice)`; a lookup of an absent key yields the nil slice,
  mirrored by `idxVal`.  Map iteration order (used by `Prune` and `Sort`)
  does not affect any result proved below because those loops act on each
  key independently.
-/

namespace Trigram

/-- One byte of a Go string. -/
abbrev Byte := Fin 256

/-- `T` is a trigram (Go `uint32`). -/
abbrev T := Nat

/-- `DocID` is a document ID (Go `uint32`). -/
abbrev DocID := Nat

/-- Go slice of document IDs: `none` is the nil slice. -/
abbrev GoSlice := Option (List DocID)

/-- `Index` is a trigram index: Go `map[T][]DocID` as an association list. -/
abbrev Index := List (T × GoSlice)

/-- A special (and invalid) trigram that holds all of the document IDs
(Go constant `tAllDocIDs = 0xFFFFFFFF`). -/
def tAllDocIDs : T := 0xFFFFFFFF

/-- Comma-ok map lookup: `v, ok := idx[t]`; `none` means the key is absent. -/
def idxGet : Index → T → Option GoSlice
  | [], _ => none
  | (k, v) :: rest, t => if k = t then some v else idxGet rest t

/-- Map assignment `idx[t] = v` (replaces the binding of `t`, or adds it). -/
def idxSet : Index → T → GoSlice → Index
  | [], t, v => [(t, v)]
  | (k, w) :: rest, t, v => if k = t then (t, v) :: rest else (k, w) :: idxSet rest t v

/-- Map deletion `delete(idx, t)`: removes the binding of `t`. -/
def idxErase : Index → T → Index
  | [], _ => []
  | e :: rest, t => if e.1 = t then idxErase rest t else e :: idxErase rest t

/-- Go `idx[t]` as a value: the nil slice when the key is absent. -/
def idxVal (idx : Index) (t : T) : GoSlice := (idxGet idx t).getD none

/-- The elements of a Go slice (the nil slice has none). -/
def sliceList (v : GoSlice) : List DocID := v.getD []

/-- Go `len` of a slice. -/
def goLen (v : GoSlice) : Nat := (sliceList v).length

/-- The elements of the slice `idx[t]`. -/
def lookList (idx : Index) (t : T) : List DocID := sliceList (idxVal idx t)

/-- Packing of three bytes into a trigram value:
`T(uint32(s[i])<<16 | uint32(s[i+1])<<8 | uint32(s[i+2]))`. -/
def pack (b0 b1 b2 : Byte) : T := b0.val * 65536 + b1.val * 256 + b2.val

/-- The trigrams of the sliding windows `s[i..i+3]` for `0 ≤ i ≤ len(s)-3`,
in order of `i`. -/
def triWindows : List Byte → List T
  | b0 :: b1 :: b2 :: rest => pack b0 b1 b2 :: triWindows (b1 :: b2 :: rest)
  | _ => []

/-- Go `appendIfUnique`: append `n` to `t` unless it already occurs. -/
def appendIfUnique (t : List T) (n : T) : List T := if n ∈ t then t else t ++ [n]

/-- Go `Extract`: all the unique trigrams of `s`, appended to the caller's
buffer `trigrams` via `appendIfUnique`. -/
def Extract (s : List Byte) (trigrams : List T) : List T :=
  (triWindows s).foldl appendIfUnique trigrams

/-- Go `ExtractAll`: all the trigrams of `s` (with repetitions), appended to
the caller's buffer `trigrams`. -/
def ExtractAll (s : List Byte) (trigrams : List T) : List T :=
  trigrams ++ triWindows s

/-- The shared postings-append step of `NewIndex` and `InsertTrigrams`:
`idxt := idx[t]; if len(idxt) == 0 || idxt[len-1] != docid { idx[t] = append(idxt, docid) }`. -/
def insStep (id : DocID) (idx : Index) (t : T) : Index :=
  let idxt := lookList idx t
  if idxt = [] ∨ idxt.getLast? ≠ some id then idxSet idx t (some (idxt ++ [id])) else idx

/-- Go `NewIndex`'s per-document loop, `id` being the position of the next
document.  Each document contributes its `ExtractAll` trigrams (the trigram
buffer is reset to empty between documents). -/
def buildDocs (idx : Index) (docs : List (List Byte)) (id : Nat) : Index :=
  match docs with
  | [] => idx
  | d :: rest => buildDocs ((ExtractAll d []).foldl (insStep id) idx) rest (id + 1)

/-- Go `NewIndex`: builds the index for `docs` and finally stores the list of
all document IDs (built by appending each ID in turn, hence the nil slice for
an empty collection) under `tAllDocIDs`. -/
def NewIndex (docs : List (List Byte)) : Index :=
  idxSet (buildDocs [] docs 0) tAllDocIDs
    (if docs.isEmpty then none else some (List.range docs.length))

/-- Go `InsertTrigrams`: add a set of trigrams with a given document ID, then
append the ID to the all-documents list. -/
def InsertTrigrams (idx : Index) (ts : List T) (id : DocID) : Index :=
  let idx' := ts.foldl (insStep id) idx
  idxSet idx' tAllDocIDs (some (lookList idx' tAllDocIDs ++ [id]))

/-- Go `Insert`: `idx.InsertTrigrams(ExtractAll(s, nil), id)`. -/
def Insert (idx : Index) (s : List Byte) (id : DocID) : Index :=
  InsertTrigrams idx (ExtractAll s []) id

/-- Go `Add`: insert under the next free document ID (the returned pair is
the updated index together with the assigned ID). -/
def Add (idx : Index) (s : List Byte) : Index × DocID :=
  let id := (lookList idx tAllDocIDs).length
  (Insert idx s id, id)

/-- Go `AddTrigrams`. -/
def AddTrigrams (idx : Index) (ts : List T) : Index × DocID :=
  let id := (lookList idx tAllDocIDs).length
  (InsertTrigrams idx ts id, id)

/-- The loop of Go `sort.Search(n, f)`: binary search for the boundary of `f`
on `[i, j)`. -/
def goSearchLoop (f : Nat → Bool) (i j : Nat) : Nat :=
  if h : i < j then
    let m := (i + j) / 2
    if f m then goSearchLoop f i m else goSearchLoop f (m + 1) j
  else i
termination_by j - i
decreasing_by
· omega
· omega

/-- Go `sort.Search(n, f)`. -/
def goSearch (n : Nat) (f : Nat → Bool) : Nat := goSearchLoop f 0 n

/-- The body of Go `Delete`'s per-trigram loop.  Go's `i != -1` test is
omitted since `sort.Search` never returns `-1`; Go's local
`i := sort.Search(...)` is written out in full at each of its three uses. -/
def delStep (id : DocID) (idx : Index) (t : T) : Index :=
  match idxGet idx t with
  | none => idx
  | some none => idx
  | some (some ids) =>
    if ids.length = 1 ∧ ids.getD 0 0 = id then idxErase idx t
    else if goSearch ids.length (fun j => id ≤ ids.getD j 0) < ids.length ∧
        ids.getD (goSearch ids.length (fun j => id ≤ ids.getD j 0)) 0 = id then
      idxSet idx t (some (ids.eraseIdx (goSearch ids.length (fun j => id ≤ ids.getD j 0))))
    else idx

/-- Go `Delete`: remove a document from the index. -/
def Delete (idx : Index) (s : List Byte) (id : DocID) : Index :=
  (ExtractAll s []).foldl (delStep id) idx

/-- Go `Sort` applied to one slice.  Go sorts with `sort.Sort` over `docList`;
since the elements being compared are the numbers themselves, every correct
sort produces the one sorted permutation, here written with `insertionSort`. -/
def sortSlice (v : GoSlice) : GoSlice := v.map (List.insertionSort (· ≤ ·))

/-- Go `Sort`: ensure all the document ID lists are in order. -/
def SortIndex (idx : Index) : Index := idx.map (fun e => (e.1, sortSlice e.2))

/-- The loop of Go `Prune` once `maxDocs` has been computed: empty (set to
the nil slice) every non-universal postings list whose length exceeds
`maxDocs`, and count the trigrams so pruned. -/
def pruneWith (idx : Index) (maxDocs : ℤ) : Index × Nat :=
  (idx.map (fun e =>
      if e.1 ≠ tAllDocIDs ∧ maxDocs < ((sliceList e.2).length : ℤ) then (e.1, none) else e),
   (idx.filter (fun e =>
      decide (e.1 ≠ tAllDocIDs ∧ maxDocs < ((sliceList e.2).length : ℤ)))).length)

/-- Go `Prune`.  Go computes `maxDocs := int(pct * float64(len(idx[tAllDocIDs])))`;
for a nonnegative `pct` this truncation is the floor of the product, modelled
exactly with rational arithmetic. -/
def Prune (idx : Index) (pct : ℚ) : Index × Nat :=
  pruneWith idx ⌊pct * ((lookList idx tAllDocIDs).length : ℚ)⌋

/-- Go `intersect`: merge-intersection of two document ID lists.  The Go loop
advances an index into `a` while `a[aidx] < b[bidx]`, an index into `b` while
`a[aidx] > b[bidx]`, and consumes both on equality; one recursion step below
corresponds to one such advance. -/
def intersect : List DocID → List DocID → List DocID
  | x :: xs, y :: ys =>
    if x = y then x :: intersect xs ys
    else if x < y then intersect xs (y :: ys)
    else intersect (x :: xs) ys
  | _, _ => []
termination_by a b => a.length + b.length
decreasing_by
· simp; omega
· simp
· simp

/-- The first inner loop of Go `intersect`:
`for a[aidx] < b[bidx] { aidx++; if aidx >= len(a) { break scan } }`.
Every slice read is bounds-checked: `none` models an out-of-range read
(a Go panic), `some none` a `break scan`, and `some (some aidx')` a normal
exit of the loop with the new index into `a`. -/
def skipA (a b : List DocID) (bidx : Nat) (aidx : Nat) : Option (Option Nat) :=
  match a[aidx]?, b[bidx]? with
  | some x, some y =>
    if x < y then
      if h : a.length ≤ aidx + 1 then some none
      else skipA a b bidx (aidx + 1)
    else some (some aidx)
  | _, _ => none
termination_by a.length - aidx
decreasing_by
omega

/-- The second inner loop of Go `intersect`:
`for bidx < len(b) && a[aidx] > b[bidx] { bidx++; if bidx >= len(b) { break scan } }`,
with the same conventions as `skipA`. -/
def skipB (a b : List DocID) (aidx : Nat) (bidx : Nat) : Option (Option Nat) :=
  if bidx < b.length then
    match a[aidx]?, b[bidx]? with
    | some x, some y =>
      if y < x then
        if h : b.length ≤ bidx + 1 then some none
        else skipB a b aidx (bidx + 1)
      else some (some bidx)
    | _, _ => none
  else some (some bidx)
termination_by b.length - bidx
decreasing_by
omega

/-- The outer `scan` loop of Go `intersect`, position by position: on equal
heads the match is appended and both indices advance (breaking out when either
runs off its end); in either case the two skipping loops then run before the
loop condition is re-checked.  The fuel argument only bounds the number of
iterations so the function is total; `goIntersect` supplies enough fuel, as
`goIntersect_eq` proves, and `none` models a panic or fuel exhaustion. -/
def goIntersectLoop (a b : List DocID) : Nat → Nat → Nat → List DocID → Option (List DocID)
  | 0, _, _, _ => none
  | fuel + 1, aidx, bidx, result =>
    if aidx < a.length ∧ bidx < b.length then
      match a[aidx]?, b[bidx]? with
      | some x, some y =>
        if x = y then
          if a.length ≤ aidx + 1 ∨ b.length ≤ bidx + 1 then some (result ++ [x])
          else
            match skipA a b (bidx + 1) (aidx + 1) with
            | none => none
            | some none => some (result ++ [x])
            | some (some ai) =>
              match skipB a b ai (bidx + 1) with
              | none => none
              | some none => some (result ++ [x])
              | some (some bi) => goIntersectLoop a b fuel ai bi (result ++ [x])
        else
          match skipA a b bidx aidx with
          | none => none
          | some none => some result
          | some (some ai) =>
            match skipB a b ai bidx with
            | none => none
            | some none => some result
            | some (some bi) => goIntersectLoop a b fuel ai bi result
      | _, _ => none
    else some result

/-- Go `intersect` as literally written: index-based two-pointer loops with
every slice access bounds-checked. -/
def goIntersect (a b : List DocID) : Option (List DocID) :=
  goIntersectLoop a b (a.length + b.length + 1) 0 0 []

/-- Go `Filter`: remove documents that don't contain the specified trigrams.
An absent key returns the empty result at once; a present key bound to the
nil slice (a trigram removed via `Prune()`) is skipped. -/
def Filter (idx : Index) (docs : List DocID) (ts : List T) : List DocID :=
  match ts with
  | [] => docs
  | t :: rest =>
    match idxGet idx t with
    | none => []
    | some none => Filter idx docs rest
    | some (some d) => Filter idx (intersect docs d) rest

/-- The frequency-gathering loop of Go `QueryTrigrams`: `none` when some
trigram is entirely unknown (absent key), in which case Go returns nil. -/
def computeFreqs (idx : Index) : List T → Option (List Nat)
  | [] => some []
  | t :: ts =>
    match idxGet idx t with
    | none => none
    | some d => (computeFreqs idx ts).map (goLen d :: ·)

/-- Go `sort.Sort(tfList{ts, freq})`, acting on trigram/frequency pairs and
comparing frequencies.  Go's `sort.Sort` guarantees a permutation ordered by
`Less` but its order on equal frequencies is implementation-defined; the
embedding fixes an insertion sort, and the theorems below depend only on the
permutation property. -/
def sortByFreq (l : List (T × Nat)) : List (T × Nat) :=
  List.insertionSort (fun p q => p.2 ≤ q.2) l

/-- Go `QueryTrigrams`.  The result is `none` exactly when the Go code panics:
its scan `for freq[nonzero] == 0 { nonzero++ }` reads past the end of `freq`
when every trigram's postings list is empty.  Otherwise `some` of the returned
document ID list (Go's nil result for an unknown trigram is the empty list). -/
def QueryTrigrams (idx : Index) (ts : List T) : Option (List DocID) :=
  if ts = [] then some (lookList idx tAllDocIDs)
  else
    match computeFreqs idx ts with
    | none => some []
    | some freq =>
      match (sortByFreq (ts.zip freq)).dropWhile (fun p => p.2 == 0) with
      | [] => none
      | (t0, _) :: rest => some (Filter idx (lookList idx t0) (rest.map Prod.fst))

/-- The contents of the caller's trigram slice `ts` after `QueryTrigrams`
returns: `sort.Sort(tfList{ts, freq})` reorders it in place once the
frequencies have been gathered; on the early returns it is untouched. -/
def QueryFinalTs (idx : Index) (ts : List T) : List T :=
  if ts = [] then ts
  else
    match computeFreqs idx ts with
    | none => ts
    | some freq => (sortByFreq (ts.zip freq)).map Prod.fst

/-- Go `Query`: `idx.QueryTrigrams(Extract(s, nil))`. -/
def Query (idx : Index) (s : List Byte) : Option (List DocID) :=
  QueryTrigrams idx (Extract s [])

/-- The first occurrence of each trigram of `l` that is not already in `acc`,
in order: `acc.foldl appendIfUnique l = acc ++ dedupFrom acc l`
(`foldl_appendIfUnique` below), so `Extract s [] = dedupFrom [] (triWindows s)`. -/
def dedupFrom (acc : List T) : List T → List T
  | [] => []
  | t :: rest => if t ∈ acc then dedupFrom acc rest else t :: dedupFrom (acc ++ [t]) rest

/-- The index states reachable from `NewIndex` through the index's mutating
operations. -/
inductive Reachable : Index → Prop
  | newIndex (docs : List (List Byte)) : Reachable (NewIndex docs)
  | add (idx : Index) (s : List Byte) : Reachable idx → Reachable (Add idx s).1
  | addTrigrams (idx : Index) (ts : List T) : Reachable idx → Reachable (AddTrigrams idx ts).1
  | insert (idx : Index) (s : List Byte) (id : DocID) : Reachable idx →
      Reachable (Insert idx s id)
  | insertTrigrams (idx : Index) (ts : List T) (id : DocID) : Reachable idx →
      Reachable (InsertTrigrams idx ts id)
  | delete (idx : Index) (s : List Byte) (id : DocID) : Reachable idx →
      Reachable (Delete idx s id)
  | sortIndex (idx : Index) : Reachable idx → Reachable (SortIndex idx)
  | prune (idx : Index) (pct : ℚ) : Reachable idx → Reachable (Prune idx pct).1

/-! ### Association-map lemmas -/

theorem idxGet_set_self (idx : Index) (k : T) (v : GoSlice) :
    idxGet (idxSet idx k v) k = some v := by
  induction idx with
  | nil => simp [idxSet, idxGet]
  | cons e rest ih =>
    by_cases h : e.1 = k
    · simp [idxSet, idxGet, h]
    · simp [idxSet, idxGet, h, ih]

theorem idxGet_set_ne (idx : Index) (k : T) (v : GoSlice) (t : T) (hne : k ≠ t) :
    idxGet (idxSet idx k v) t = idxGet idx t := by
  induction idx with
  | nil => simp [idxSet, idxGet, hne, Ne.symm hne]
  | cons e rest ih =>
    by_cases h : e.1 = k
    · simp [idxSet, idxGet, h, hne, Ne.symm hne]
    · by_cases h2 : e.1 = t <;> simp [idxSet, idxGet, h, h2, hne, Ne.symm hne, ih]

theorem idxGet_erase_self (idx : Index) (t : T) : idxGet (idxErase idx t) t = none := by
  induction idx with
  | nil => simp [idxErase, idxGet]
  | cons e rest ih =>
    by_cases h : e.1 = t
    · simpa [idxErase, h] using ih
    · simpa [idxErase, idxGet, h] using ih

theorem idxGet_erase_ne (idx : Index) (k t : T) (hne : k ≠ t) :
    idxGet (idxErase idx k) t = idxGet idx t := by
  induction idx with
  | nil => simp [idxErase, idxGet]
  | cons e rest ih =>
    by_cases h : e.1 = k
    · have h2 : e.1 ≠ t := h ▸ hne
      simp [idxErase, idxGet, h, h2, hne, Ne.symm hne, ih]
    · by_cases h2 : e.1 = t
      · simp [idxErase, idxGet, h, h2, hne, Ne.symm hne]
      · simp [idxErase, idxGet, h, h2, hne, Ne.symm hne, ih]

theorem lookList_set_self (idx : Index) (k : T) (v : GoSlice) :
    lookList (idxSet idx k v) k = sliceList v := by
  simp [lookList, idxVal, idxGet_set_self]

theorem lookList_set_ne (idx : Index) (k : T) (v : GoSlice) (t : T) (hne : k ≠ t) :
    lookList (idxSet idx k v) t = lookList idx t := by
  simp [lookList, idxVal, idxGet_set_ne _ _ _ _ hne]

/-! ### `intersect`: list-level characterisation -/

theorem intersect_nil_left (b : List DocID) : intersect [] b = [] := by
  cases b <;> simp [intersect]

theorem intersect_nil_right (a : List DocID) : intersect a [] = [] := by
  cases a <;> simp [intersect]

theorem intersect_cons_eq (x : DocID) (xs ys : List DocID) :
    intersect (x :: xs) (x :: ys) = x :: intersect xs ys := by
  simp [intersect]

theorem intersect_cons_lt (x y : DocID) (xs ys : List DocID) (h : x < y) :
    intersect (x :: xs) (y :: ys) = intersect xs (y :: ys) := by
  simp [intersect, h, Nat.ne_of_lt h]

theorem intersect_cons_gt (x y : DocID) (xs ys : List DocID) (h : y < x) :
    intersect (x :: xs) (y :: ys) = intersect (x :: xs) ys := by
  have h1 : x ≠ y := (Nat.ne_of_lt h).symm
  have h2 : ¬ x < y := Nat.lt_asymm h
  simp [intersect, h1, h2]

theorem intersect_eq_filter : ∀ {a b : List DocID}, a.Sorted (· < ·) → b.Sorted (· < ·) →
    intersect a b = a.filter (fun x => decide (x ∈ b))
  | [], b, _, _ => by simp [intersect_nil_left]
  | x :: xs, [], _, _ => by simp [intersect_nil_right]
  | x :: xs, y :: ys, ha, hb => by
    obtain ⟨hax, has⟩ := List.sorted_cons.mp ha
    obtain ⟨hby, hbs⟩ := List.sorted_cons.mp hb
    rcases Nat.lt_trichotomy x y with hlt | heq | hgt
    · rw [intersect_cons_lt x y xs ys hlt]
      rw [intersect_eq_filter has hb]
      have hx : x ∉ y :: ys := by
        intro hmem
        rcases List.mem_cons.mp hmem with rfl | hmem
        · exact absurd hlt (lt_irrefl x)
        · exact absurd (hby x hmem) (Nat.lt_asymm hlt)
      have hx2 : ¬ (x = y ∨ x ∈ ys) := by simpa [List.mem_cons] using hx
      simp [List.filter_cons, hx2]
    · subst heq
      rw [intersect_cons_eq]
      rw [intersect_eq_filter has hbs]
      have hcongr : xs.filter (fun e => decide (e ∈ x :: ys)) =
          xs.filter (fun e => decide (e ∈ ys)) := by
        apply List.filter_congr
        intro e he
        have hxe : x < e := hax e he
        have : e ≠ x := (Nat.ne_of_lt hxe).symm
        simp [List.mem_cons, this]
      simp [List.filter_cons, List.mem_cons, ← hcongr]
    · rw [intersect_cons_gt x y xs ys hgt]
      rw [intersect_eq_filter ha hbs]
      apply Eq.symm
      apply List.filter_congr
      intro e he
      have hgey : y < e := by
        rcases List.mem_cons.mp he with rfl | he
        · exact hgt
        · exact lt_trans hgt (hax e he)
      have : e ≠ y := (Nat.ne_of_lt hgey).symm
      simp [List.mem_cons, this]
termination_by a b => a.length + b.length
decreasing_by
all_goals simp
all_goals omega

theorem mem_intersect {a b : List DocID} (ha : a.Sorted (· < ·)) (hb : b.Sorted (· < ·))
    (x : DocID) : x ∈ intersect a b ↔ x ∈ a ∧ x ∈ b := by
  rw [intersect_eq_filter ha hb]
  simp [List.mem_filter]

theorem intersect_sorted {a b : List DocID} (ha : a.Sorted (· < ·)) (hb : b.Sorted (· < ·)) :
    (intersect a b).Sorted (· < ·) := by
  rw [intersect_eq_filter ha hb]
  exact ha.filter _

theorem intersect_nodup {a b : List DocID} (ha : a.Sorted (· < ·)) (hb : b.Sorted (· < ·)) :
    (intersect a b).Nodup := by
  haveI : IsIrrefl DocID (· < ·) := ⟨fun a => lt_irrefl a⟩
  exact (intersect_sorted ha hb).nodup

theorem intersect_comm {a b : List DocID} (ha : a.Sorted (· < ·)) (hb : b.Sorted (· < ·)) :
    intersect a b = intersect b a := by
  haveI : IsIrrefl DocID (· < ·) := ⟨fun a => lt_irrefl a⟩
  haveI : IsAntisymm DocID (· < ·) := ⟨fun a b h h' => absurd h (Nat.lt_asymm h')⟩
  apply List.eq_of_perm_of_sorted _ (intersect_sorted ha hb) (intersect_sorted hb ha)
  apply (List.perm_ext_iff_of_nodup (intersect_nodup ha hb) (intersect_nodup hb ha)).mpr
  intro x
  rw [mem_intersect ha hb, mem_intersect hb ha]
  exact and_comm

/-! ### The index-based Go loop computes `intersect`, staying in bounds -/

theorem getD_eq_of_lt {l : List DocID} {i : Nat} (h : i < l.length) : l.getD i 0 = l[i] := by
  rw [List.getD_eq_getElem?_getD, List.getElem?_eq_getElem h]
  rfl

theorem skipA_spec (a b : List DocID) (bidx : Nat) (hb : bidx < b.length) :
    ∀ n aidx, a.length - aidx = n → aidx < a.length →
      (skipA a b bidx aidx = some none ∧ intersect (a.drop aidx) (b.drop bidx) = []) ∨
      (∃ ai, skipA a b bidx aidx = some (some ai) ∧ aidx ≤ ai ∧ ai < a.length ∧
        ¬ (a.getD ai 0 < b.getD bidx 0) ∧
        intersect (a.drop aidx) (b.drop bidx) = intersect (a.drop ai) (b.drop bidx)) := by
  intro n
  induction n using Nat.strong_induction_on with
  | _ n ih =>
    intro aidx hn ha
    have hga : a[aidx]? = some a[aidx] := List.getElem?_eq_getElem ha
    have hgb : b[bidx]? = some b[bidx] := List.getElem?_eq_getElem hb
    rw [List.drop_eq_getElem_cons ha, List.drop_eq_getElem_cons hb]
    by_cases hxy : a[aidx] < b[bidx]
    · rw [intersect_cons_lt _ _ _ _ hxy]
      by_cases hend : a.length ≤ aidx + 1
      · left
        constructor
        · rw [skipA, hga, hgb]
          simp [hxy, hend]
        · rw [List.drop_eq_nil_of_le hend, intersect_nil_left]
      · have ha' : aidx + 1 < a.length := by omega
        have hrec := ih (a.length - (aidx + 1)) (by omega) (aidx + 1) rfl ha'
        have hstep : skipA a b bidx aidx = skipA a b bidx (aidx + 1) := by
          rw [skipA, hga, hgb]
          simp [hxy, hend]
        rw [← List.drop_eq_getElem_cons hb]
        rcases hrec with ⟨heq, hint⟩ | ⟨ai, heq, hle, hlt, hcmp, hint⟩
        · exact Or.inl ⟨hstep ▸ heq, hint⟩
        · exact Or.inr ⟨ai, hstep ▸ heq, by omega, hlt, hcmp, hint⟩
    · right
      refine ⟨aidx, ?_, le_refl _, ha, ?_, ?_⟩
      · rw [skipA, hga, hgb]
        simp [hxy]
      · rw [getD_eq_of_lt ha, getD_eq_of_lt hb]
        exact hxy
      · rw [← List.drop_eq_getElem_cons hb, ← List.drop_eq_getElem_cons ha]

theorem skipB_spec (a b : List DocID) (aidx : Nat) (ha : aidx < a.length) :
    ∀ n bidx, b.length - bidx = n → bidx < b.length →
      (skipB a b aidx bidx = some none ∧ intersect (a.drop aidx) (b.drop bidx) = []) ∨
      (∃ bi, skipB a b aidx bidx = some (some bi) ∧ bidx ≤ bi ∧ bi < b.length ∧
        ¬ (b.getD bi 0 < a.getD aidx 0) ∧
        intersect (a.drop aidx) (b.drop bidx) = intersect (a.drop aidx) (b.drop bi)) := by
  intro n
  induction n using Nat.strong_induction_on with
  | _ n ih =>
    intro bidx hn hb
    have hga : a[aidx]? = some a[aidx] := List.getElem?_eq_getElem ha
    have hgb : b[bidx]? = some b[bidx] := List.getElem?_eq_getElem hb
    rw [List.drop_eq_getElem_cons ha, List.drop_eq_getElem_cons hb]
    by_cases hxy : b[bidx] < a[aidx]
    · rw [intersect_cons_gt _ _ _ _ hxy]
      by_cases hend : b.length ≤ bidx + 1
      · left
        constructor
        · rw [skipB, hga, hgb]
          simp [hb, hxy, hend]
        · rw [List.drop_eq_nil_of_le hend, intersect_nil_right]
      · have hb' : bidx + 1 < b.length := by omega
        have hrec := ih (b.length - (bidx + 1)) (by omega) (bidx + 1) rfl hb'
        have hstep : skipB a b aidx bidx = skipB a b aidx (bidx + 1) := by
          rw [skipB, hga, hgb]
          simp [hb, hxy, hend]
        rw [← List.drop_eq_getElem_cons ha]
        rcases hrec with ⟨heq, hint⟩ | ⟨bi, heq, hle, hlt, hcmp, hint⟩
        · exact Or.inl ⟨hstep ▸ heq, hint⟩
        · exact Or.inr ⟨bi, hstep ▸ heq, by omega, hlt, hcmp, hint⟩
    · right
      refine ⟨bidx, ?_, le_refl _, hb, ?_, ?_⟩
      · rw [skipB, hga, hgb]
        simp [hb, hxy]
      · rw [getD_eq_of_lt ha, getD_eq_of_lt hb]
        exact hxy
      · rw [← List.drop_eq_getElem_cons hb, ← List.drop_eq_getElem_cons ha]

theorem goIntersectLoop_eq (a b : List DocID) : ∀ fuel aidx bidx result,
    (a.length - aidx) + (b.length - bidx) < fuel →
    goIntersectLoop a b fuel aidx bidx result =
      some (result ++ intersect (a.drop aidx) (b.drop bidx)) := by
  intro fuel
  induction fuel with
  | zero => intro aidx bidx result hm; omega
  | succ fuel ih =>
    intro aidx bidx result hm
    by_cases hcond : aidx < a.length ∧ bidx < b.length
    · obtain ⟨ha, hb⟩ := hcond
      have hga : a[aidx]? = some a[aidx] := List.getElem?_eq_getElem ha
      have hgb : b[bidx]? = some b[bidx] := List.getElem?_eq_getElem hb
      rw [goIntersectLoop]
      simp only [ha, hb, and_self, if_true, hga, hgb]
      rw [List.drop_eq_getElem_cons ha, List.drop_eq_getElem_cons hb]
      by_cases hxy : a[aidx] = b[bidx]
      · rw [if_pos hxy, ← hxy, intersect_cons_eq]
        by_cases hend : a.length ≤ aidx + 1 ∨ b.length ≤ bidx + 1
        · rw [if_pos hend]
          have hnil : intersect (a.drop (aidx + 1)) (b.drop (bidx + 1)) = [] := by
            rcases hend with hend | hend
            · rw [List.drop_eq_nil_of_le hend, intersect_nil_left]
            · rw [List.drop_eq_nil_of_le hend, intersect_nil_right]
          rw [hnil]
        · rw [if_neg hend]
          push_neg at hend
          obtain ⟨ha2, hb2⟩ := hend
          rcases skipA_spec a b (bidx + 1) hb2 _ (aidx + 1) rfl ha2 with
            ⟨hsa, hint⟩ | ⟨ai, hsa, hle, hai, _, hint⟩
          · rw [hsa, hint]
          · rcases skipB_spec a b ai hai _ (bidx + 1) rfl hb2 with
              ⟨hsb, hint2⟩ | ⟨bi, hsb, hleb, hbi, _, hint2⟩
            · simp only [hsa, hsb]
              rw [hint, hint2]
            · simp only [hsa, hsb]
              rw [ih ai bi (result ++ [a[aidx]]) (by omega), hint, hint2]
              simp
      · rw [if_neg hxy]
        rcases skipA_spec a b bidx hb _ aidx rfl ha with
          ⟨hsa, hint⟩ | ⟨ai, hsa, hle, hai, hcmp, hint⟩
        · rw [hsa, ← List.drop_eq_getElem_cons ha, ← List.drop_eq_getElem_cons hb, hint]
          simp
        · rcases skipB_spec a b ai hai _ bidx rfl hb with
            ⟨hsb, hint2⟩ | ⟨bi, hsb, hleb, hbi, hcmp2, hint2⟩
          · simp only [hsa, hsb]
            rw [← List.drop_eq_getElem_cons ha, ← List.drop_eq_getElem_cons hb, hint,
              hint2]
            simp
          · have hstrict : aidx < ai ∨ bidx < bi := by
              by_contra hno
              push_neg at hno
              have hai2 : ai = aidx := le_antisymm hno.1 hle
              have hbi2 : bi = bidx := le_antisymm hno.2 hleb
              rw [hai2] at hcmp
              rw [hbi2, hai2] at hcmp2
              rw [getD_eq_of_lt ha, getD_eq_of_lt hb] at hcmp
              rw [getD_eq_of_lt ha, getD_eq_of_lt hb] at hcmp2
              exact hxy (Nat.le_antisymm (Nat.not_lt.mp hcmp2) (Nat.not_lt.mp hcmp))
            simp only [hsa, hsb]
            rw [ih ai bi result (by omega), ← List.drop_eq_getElem_cons ha,
              ← List.drop_eq_getElem_cons hb, hint, hint2]
    · rw [goIntersectLoop, if_neg hcond]
      have hnil : intersect (a.drop aidx) (b.drop bidx) = [] := by
        rcases Nat.lt_or_ge aidx a.length with h1 | h1
        · have h2 : b.length ≤ bidx := by omega
          rw [List.drop_eq_nil_of_le h2, intersect_nil_right]
        · rw [List.drop_eq_nil_of_le h1, intersect_nil_left]
      rw [hnil]
      simp

/-- The index-based Go `intersect` runs to completion with every slice read in
bounds, and returns exactly the list-level `intersect`. -/
theorem goIntersect_eq (a b : List DocID) : goIntersect a b = some (intersect a b) := by
  have h := goIntersectLoop_eq a b (a.length + b.length + 1) 0 0 [] (by omega)
  simpa [goIntersect] using h

/-- C3: for all ascending, duplicate-free sequences `a` and `b` of document
IDs, `intersect(a, b)` equals the set intersection of `a` and `b`, is
ascending and duplicate-free, terminates without reading past the bounds of
either sequence (the bounds-checked `goIntersect` returns `some`, never the
panic value `none`), and `intersect(a, b) == intersect(b, a)`. -/
theorem intersect_correct (a b : List DocID) (ha : a.Sorted (· < ·))
    (hb : b.Sorted (· < ·)) :
    (∀ x, x ∈ intersect a b ↔ x ∈ a ∧ x ∈ b) ∧
    (intersect a b).Sorted (· < ·) ∧
    (intersect a b).Nodup ∧
    intersect a b = intersect b a ∧
    goIntersect a b = some (intersect a b) :=
  ⟨mem_intersect ha hb, intersect_sorted ha hb, intersect_nodup ha hb,
    intersect_comm ha hb, goIntersect_eq a b⟩

theorem intersect_correct_witness :
    ([1, 3, 5] : List DocID).Sorted (· < ·) ∧ ([3, 5, 7] : List DocID).Sorted (· < ·) ∧
    ((∀ x, x ∈ intersect [1, 3, 5] [3, 5, 7] ↔ x ∈ [1, 3, 5] ∧ x ∈ [3, 5, 7]) ∧
      (intersect [1, 3, 5] [3, 5, 7]).Sorted (· < ·) ∧
      (intersect [1, 3, 5] [3, 5, 7]).Nodup ∧
      intersect [1, 3, 5] [3, 5, 7] = intersect [3, 5, 7] [1, 3, 5] ∧
      goIntersect [1, 3, 5] [3, 5, 7] = some (intersect [1, 3, 5] [3, 5, 7])) :=
  ⟨by decide, by decide, intersect_correct [1, 3, 5] [3, 5, 7] (by decide) (by decide)⟩

/-! ### `Filter` and `QueryTrigrams` on unknown and pruned trigrams -/

theorem Filter_absent (idx : Index) : ∀ ts docs (t : T), t ∈ ts →
    idxGet idx t = none → Filter idx docs ts = [] := by
  intro ts
  induction ts with
  | nil => intro docs t hmem; exact absurd hmem (List.not_mem_nil t)
  | cons u rest ih =>
    intro docs t hmem habs
    rcases List.mem_cons.mp hmem with rfl | hmem
    · simp [Filter, habs]
    · match hu : idxGet idx u with
      | none => simp [Filter, hu]
      | some none => simpa [Filter, hu] using ih docs t hmem habs
      | some (some d) => simpa [Filter, hu] using ih (intersect docs d) t hmem habs

theorem Filter_pruned (idx : Index) (docs : List DocID) (ts : List T) (t : T)
    (h : idxGet idx t = some none) : Filter idx docs (t :: ts) = Filter idx docs ts := by
  simp [Filter, h]

theorem computeFreqs_absent (idx : Index) : ∀ ts (t : T), t ∈ ts →
    idxGet idx t = none → computeFreqs idx ts = none := by
  intro ts
  induction ts with
  | nil => intro t hmem; exact absurd hmem (List.not_mem_nil t)
  | cons u rest ih =>
    intro t hmem habs
    rcases List.mem_cons.mp hmem with rfl | hmem
    · simp [computeFreqs, habs]
    · match hu : idxGet idx u with
      | none => simp [computeFreqs, hu]
      | some d => simp [computeFreqs, hu, ih t hmem habs]

theorem QueryTrigrams_unknown (idx : Index) (ts : List T) (t : T) (hmem : t ∈ ts)
    (habs : idxGet idx t = none) : QueryTrigrams idx ts = some [] := by
  have hne : ts ≠ [] := by
    intro h
    rw [h] at hmem
    exact absurd hmem (List.not_mem_nil t)
  simp [QueryTrigrams, hne, computeFreqs_absent idx ts t hmem habs]

/-- C6: `filter(docs, ts)` returns the empty sequence as soon as it meets a
trigram whose key is absent from the index; a trigram whose key is present
with an empty (pruned) postings list leaves the running candidate list
unchanged for that step and filtering continues; and `queryTrigrams` returns
the empty sequence when any query trigram is an absent key. -/
theorem filter_error_handling (idx : Index) (docs : List DocID) (ts : List T) (t : T) :
    (t ∈ ts → idxGet idx t = none → Filter idx docs ts = []) ∧
    (idxGet idx t = some none → Filter idx docs (t :: ts) = Filter idx docs ts) ∧
    (t ∈ ts → idxGet idx t = none → QueryTrigrams idx ts = some []) :=
  ⟨fun hmem habs => Filter_absent idx ts docs t hmem habs,
   fun h => Filter_pruned idx docs ts t h,
   fun hmem habs => QueryTrigrams_unknown idx ts t hmem habs⟩

theorem filter_error_handling_witness :
    Filter (NewIndex [[97, 98, 99]]) [0] [99999] = [] ∧
    Filter [(6382179, none), (tAllDocIDs, some [0])] [0] (6382179 :: [tAllDocIDs]) =
      Filter [(6382179, none), (tAllDocIDs, some [0])] [0] [tAllDocIDs] ∧
    QueryTrigrams (NewIndex [[97, 98, 99]]) [99999] = some [] :=
  ⟨(filter_error_handling (NewIndex [[97, 98, 99]]) [0] [99999] 99999).1
      (by decide) (by decide),
   (filter_error_handling [(6382179, none), (tAllDocIDs, some [0])] [0]
      [tAllDocIDs] 6382179).2.1 (by decide),
   (filter_error_handling (NewIndex [[97, 98, 99]]) [0] [99999] 99999).2.2
      (by decide) (by decide)⟩

/-! ### Extraction: `Extract` deduplicates the trigram windows -/

theorem foldl_appendIfUnique : ∀ (l acc : List T),
    l.foldl appendIfUnique acc = acc ++ dedupFrom acc l := by
  intro l
  induction l with
  | nil => simp [dedupFrom]
  | cons t rest ih =>
    intro acc
    rw [List.foldl_cons, dedupFrom]
    by_cases h : t ∈ acc
    · rw [if_pos h, show appendIfUnique acc t = acc by simp [appendIfUnique, h], ih acc]
    · rw [if_neg h, show appendIfUnique acc t = acc ++ [t] by simp [appendIfUnique, h],
        ih (acc ++ [t]), List.append_assoc]
      rfl

theorem Extract_eq_dedup (s : List Byte) : Extract s [] = dedupFrom [] (triWindows s) := by
  simpa [Extract] using foldl_appendIfUnique (triWindows s) []

theorem mem_dedupFrom : ∀ (l acc : List T) (x : T),
    x ∈ dedupFrom acc l ↔ x ∈ l ∧ x ∉ acc := by
  intro l
  induction l with
  | nil => simp [dedupFrom]
  | cons t rest ih =>
    intro acc x
    rw [dedupFrom]
    by_cases h : t ∈ acc
    · rw [if_pos h, ih acc x]
      constructor
      · rintro ⟨h1, h2⟩
        exact ⟨List.mem_cons_of_mem t h1, h2⟩
      · rintro ⟨h1, h2⟩
        rcases List.mem_cons.mp h1 with rfl | h1
        · exact absurd h h2
        · exact ⟨h1, h2⟩
    · rw [if_neg h]
      constructor
      · intro hmem
        rcases List.mem_cons.mp hmem with rfl | hmem
        · exact ⟨List.mem_cons_self x rest, h⟩
        · obtain ⟨h1, h2⟩ := (ih (acc ++ [t]) x).mp hmem
          exact ⟨List.mem_cons_of_mem t h1, fun hx => h2 (List.mem_append.mpr (Or.inl hx))⟩
      · rintro ⟨h1, h2⟩
        by_cases hx : x = t
        · subst hx
          exact List.mem_cons_self x _
        · rcases List.mem_cons.mp h1 with rfl | h1
          · exact absurd rfl hx
          · refine List.mem_cons_of_mem t ((ih (acc ++ [t]) x).mpr ⟨h1, ?_⟩)
            intro hmem2
            rcases List.mem_append.mp hmem2 with hmem2 | hmem2
            · exact h2 hmem2
            · exact hx (List.mem_singleton.mp hmem2)

theorem nodup_dedupFrom : ∀ (l acc : List T), (dedupFrom acc l).Nodup := by
  intro l
  induction l with
  | nil => simp [dedupFrom]
  | cons t rest ih =>
    intro acc
    rw [dedupFrom]
    by_cases h : t ∈ acc
    · rw [if_pos h]
      exact ih acc
    · rw [if_neg h]
      refine List.nodup_cons.mpr ⟨?_, ih (acc ++ [t])⟩
      rw [mem_dedupFrom]
      rintro ⟨-, h2⟩
      exact h2 (List.mem_append.mpr (Or.inr (List.mem_singleton.mpr rfl)))

theorem mem_Extract (s : List Byte) (x : T) : x ∈ Extract s [] ↔ x ∈ triWindows s := by
  rw [Extract_eq_dedup, mem_dedupFrom]
  simp

theorem Extract_nodup (s : List Byte) : (Extract s []).Nodup := by
  rw [Extract_eq_dedup]
  exact nodup_dedupFrom _ _

theorem pack_lt (b0 b1 b2 : Byte) : pack b0 b1 b2 < 16777216 := by
  have h0 := b0.isLt
  have h1 := b1.isLt
  have h2 := b2.isLt
  show b0.val * 65536 + b1.val * 256 + b2.val < 16777216
  omega

theorem triWindows_ne_tAll : ∀ (s : List Byte) (t : T), t ∈ triWindows s →
    t ≠ tAllDocIDs := by
  intro s
  induction s with
  | nil => intro t h; exact absurd h (List.not_mem_nil t)
  | cons b0 rest ih =>
    intro t h
    match rest, h with
    | b1 :: b2 :: r, h =>
      rcases List.mem_cons.mp h with rfl | h
      · intro heq
        have hlt := pack_lt b0 b1 b2
        rw [heq, show tAllDocIDs = 4294967295 from rfl] at hlt
        norm_num at hlt
      · exact ih t h

/-! ### A fold over a trigram list equals the fold over its deduplication -/

theorem foldl_dedup_eq (step : Index → T → Index) (Done : Index → T → Prop)
    (Inv : Index → Prop)
    (hInv : ∀ idx t, Inv idx → Inv (step idx t))
    (hnoop : ∀ idx t, Inv idx → Done idx t → step idx t = idx)
    (hmk : ∀ idx t, Inv idx → Done (step idx t) t)
    (hframe : ∀ idx u t, Inv idx → Done idx t → Done (step idx u) t) :
    ∀ (l : List T) (idx : Index) (acc : List T), Inv idx → (∀ t ∈ acc, Done idx t) →
      l.foldl step idx = (dedupFrom acc l).foldl step idx := by
  intro l
  induction l with
  | nil => intro idx acc _ _; rw [dedupFrom]
  | cons t rest ih =>
    intro idx acc hinv hacc
    rw [dedupFrom]
    by_cases h : t ∈ acc
    · rw [if_pos h, List.foldl_cons, hnoop idx t hinv (hacc t h)]
      exact ih idx acc hinv hacc
    · rw [if_neg h, List.foldl_cons, List.foldl_cons]
      apply ih (step idx t) (acc ++ [t]) (hInv idx t hinv)
      intro u hu
      rcases List.mem_append.mp hu with hu | hu
      · exact hframe idx t u hinv (hacc u hu)
      · rw [List.mem_singleton] at hu
        subst hu
        exact hmk idx _ hinv

/-! ### `insStep` facts -/

theorem insStep_get_ne (id : DocID) (idx : Index) (t u : T) (hne : t ≠ u) :
    idxGet (insStep id idx t) u = idxGet idx u := by
  by_cases hc : lookList idx t = [] ∨ (lookList idx t).getLast? ≠ some id
  · simp only [insStep, if_pos hc]
    exact idxGet_set_ne idx t _ u hne
  · simp only [insStep, if_neg hc]

theorem insStep_lookList_ne (id : DocID) (idx : Index) (t u : T) (hne : t ≠ u) :
    lookList (insStep id idx t) u = lookList idx u := by
  simp [lookList, idxVal, insStep_get_ne id idx t u hne]

theorem insStep_get_self (id : DocID) (idx : Index) (t : T) :
    idxGet (insStep id idx t) t =
      if lookList idx t = [] ∨ (lookList idx t).getLast? ≠ some id
      then some (some (lookList idx t ++ [id])) else idxGet idx t := by
  by_cases hc : lookList idx t = [] ∨ (lookList idx t).getLast? ≠ some id
  · simp only [insStep, if_pos hc]
    exact idxGet_set_self idx t _
  · simp only [insStep, if_neg hc]

theorem insStep_done (id : DocID) (idx : Index) (t : T) :
    lookList (insStep id idx t) t ≠ [] ∧
      (lookList (insStep id idx t) t).getLast? = some id := by
  by_cases hc : lookList idx t = [] ∨ (lookList idx t).getLast? ≠ some id
  · simp only [insStep, if_pos hc]
    rw [lookList_set_self]
    constructor
    · simp [sliceList]
    · simp [sliceList]
  · simp only [insStep, if_neg hc]
    push_neg at hc
    exact ⟨hc.1, hc.2⟩

theorem insStep_noop (id : DocID) (idx : Index) (t : T)
    (h1 : lookList idx t ≠ []) (h2 : (lookList idx t).getLast? = some id) :
    insStep id idx t = idx := by
  have hc : ¬ (lookList idx t = [] ∨ (lookList idx t).getLast? ≠ some id) := by
    push_neg
    exact ⟨h1, h2⟩
  simp only [insStep, if_neg hc]

theorem foldl_insStep_dedup (id : DocID) (l : List T) (idx : Index) :
    l.foldl (insStep id) idx = (dedupFrom [] l).foldl (insStep id) idx :=
  foldl_dedup_eq (insStep id)
    (fun idx t => lookList idx t ≠ [] ∧ (lookList idx t).getLast? = some id)
    (fun _ => True)
    (fun _ _ _ => trivial)
    (fun idx t _ hd => insStep_noop id idx t hd.1 hd.2)
    (fun idx t _ => insStep_done id idx t)
    (fun idx u t _ hd => by
      by_cases hut : u = t
      · subst hut
        exact insStep_done id idx u
      · show lookList (insStep id idx u) t ≠ [] ∧
          (lookList (insStep id idx u) t).getLast? = some id
        rw [insStep_lookList_ne id idx u t hut]
        exact hd)
    l idx [] trivial (fun t ht => absurd ht (List.not_mem_nil t))

theorem foldl_insStep_get (id : DocID) : ∀ (ts : List T) (idx : Index) (t : T), ts.Nodup →
    idxGet (ts.foldl (insStep id) idx) t =
      if t ∈ ts ∧ (lookList idx t = [] ∨ (lookList idx t).getLast? ≠ some id)
      then some (some (lookList idx t ++ [id])) else idxGet idx t := by
  intro ts
  induction ts with
  | nil => intro idx t _; simp
  | cons u rest ih =>
    intro idx t hnd
    obtain ⟨hu, hnd⟩ := List.nodup_cons.mp hnd
    rw [List.foldl_cons, ih (insStep id idx u) t hnd]
    by_cases htu : t = u
    · subst htu
      have hnotmem : ¬ (t ∈ rest ∧ (lookList (insStep id idx t) t = [] ∨
          (lookList (insStep id idx t) t).getLast? ≠ some id)) := fun hc => hu hc.1
      rw [if_neg hnotmem, insStep_get_self]
      by_cases hc : lookList idx t = [] ∨ (lookList idx t).getLast? ≠ some id
      · rw [if_pos hc, if_pos ⟨List.mem_cons_self t rest, hc⟩]
      · rw [if_neg hc, if_neg (fun hc2 => hc hc2.2)]
    · have hlook : lookList (insStep id idx u) t = lookList idx t :=
        insStep_lookList_ne id idx u t (fun h => htu h.symm)
      rw [hlook, insStep_get_ne id idx u t (fun h => htu h.symm)]
      by_cases hc : t ∈ rest ∧ (lookList idx t = [] ∨ (lookList idx t).getLast? ≠ some id)
      · rw [if_pos hc, if_pos ⟨List.mem_cons_of_mem u hc.1, hc.2⟩]
      · rw [if_neg hc, if_neg]
        intro hc2
        rcases List.mem_cons.mp hc2.1 with rfl | hmem
        · exact htu rfl
        · exact hc ⟨hmem, hc2.2⟩

theorem foldl_insStep_lookList_of_allne (id : DocID) :
    ∀ (ts : List T) (idx : Index) (u : T), (∀ t ∈ ts, t ≠ u) →
      lookList (ts.foldl (insStep id) idx) u = lookList idx u := by
  intro ts
  induction ts with
  | nil => intro idx u _; rfl
  | cons t rest ih =>
    intro idx u hall
    rw [List.foldl_cons, ih (insStep id idx t) u (fun v hv => hall v (List.mem_cons_of_mem t hv)),
      insStep_lookList_ne id idx t u (hall t (List.mem_cons_self t rest))]

/-- C8: `insert(s, id)` has the same effect on the index as inserting the
deduplicated trigram sequence of `s`; each per-trigram postings list receives
`id` at most once per call, appended exactly when the list is empty or its
last entry differs from `id`, and `id` is appended to the universal list
exactly once — including when `s` has fewer than 3 bytes or repeats
trigrams. -/
theorem insert_extracts_dedup (idx : Index) (s : List Byte) (id : DocID) :
    Insert idx s id = InsertTrigrams idx (Extract s []) id ∧
    lookList (Insert idx s id) tAllDocIDs = lookList idx tAllDocIDs ++ [id] ∧
    (∀ t : T, t ≠ tAllDocIDs →
      idxVal (Insert idx s id) t =
        if t ∈ Extract s [] ∧
            (lookList idx t = [] ∨ (lookList idx t).getLast? ≠ some id)
        then some (lookList idx t ++ [id]) else idxVal idx t) := by
  have hall : ∀ t ∈ triWindows s, t ≠ tAllDocIDs := fun t ht => triWindows_ne_tAll s t ht
  have hextr : ExtractAll s [] = triWindows s := by simp [ExtractAll]
  have heq : Insert idx s id = InsertTrigrams idx (Extract s []) id := by
    unfold Insert InsertTrigrams
    rw [hextr, foldl_insStep_dedup id (triWindows s) idx, ← Extract_eq_dedup]
  refine ⟨heq, ?_, ?_⟩
  · unfold Insert InsertTrigrams
    rw [hextr, lookList_set_self,
      foldl_insStep_lookList_of_allne id (triWindows s) idx tAllDocIDs hall]
    rfl
  · intro t hne
    rw [heq]
    unfold InsertTrigrams
    rw [idxVal, idxGet_set_ne _ _ _ _ (Ne.symm hne),
      foldl_insStep_get id (Extract s []) idx t (Extract_nodup s)]
    by_cases hc : t ∈ Extract s [] ∧
        (lookList idx t = [] ∨ (lookList idx t).getLast? ≠ some id)
    · rw [if_pos hc, if_pos hc]
      rfl
    · rw [if_neg hc, if_neg hc]
      rfl

theorem insert_extracts_dedup_witness :
    Insert (NewIndex [[97, 98, 99]]) [97, 98, 99, 97, 98, 99] 5 =
      InsertTrigrams (NewIndex [[97, 98, 99]]) (Extract [97, 98, 99, 97, 98, 99] []) 5 ∧
    lookList (Insert (NewIndex [[97, 98, 99]]) [97, 98, 99, 97, 98, 99] 5) tAllDocIDs =
      lookList (NewIndex [[97, 98, 99]]) tAllDocIDs ++ [5] ∧
    idxVal (Insert (NewIndex [[97, 98, 99]]) [97, 98, 99, 97, 98, 99] 5) 6382179 =
      if (6382179 : T) ∈ Extract [97, 98, 99, 97, 98, 99] [] ∧
          (lookList (NewIndex [[97, 98, 99]]) 6382179 = [] ∨
            (lookList (NewIndex [[97, 98, 99]]) 6382179).getLast? ≠ some 5)
      then some (lookList (NewIndex [[97, 98, 99]]) 6382179 ++ [5])
      else idxVal (NewIndex [[97, 98, 99]]) 6382179 :=
  ⟨(insert_extracts_dedup (NewIndex [[97, 98, 99]]) [97, 98, 99, 97, 98, 99] 5).1,
   (insert_extracts_dedup (NewIndex [[97, 98, 99]]) [97, 98, 99, 97, 98, 99] 5).2.1,
   (insert_extracts_dedup (NewIndex [[97, 98, 99]]) [97, 98, 99, 97, 98, 99] 5).2.2
     6382179 (by decide)⟩

/-! ### The query reorders the caller's trigram slice -/

theorem computeFreqs_length (idx : Index) : ∀ (ts : List T) (freq : List Nat),
    computeFreqs idx ts = some freq → freq.length = ts.length := by
  intro ts
  induction ts with
  | nil =>
    intro freq h
    simp [computeFreqs] at h
    rw [← h]
  | cons u rest ih =>
    intro freq h
    match hu : idxGet idx u with
    | none => rw [computeFreqs, hu] at h; exact absurd h (by simp)
    | some d =>
      rw [computeFreqs, hu] at h
      match hr : computeFreqs idx rest with
      | none => rw [hr] at h; exact absurd h (by simp)
      | some fr =>
        rw [hr] at h
        simp only [Option.map_some'] at h
        rw [← Option.some_inj.mp h]
        simp [ih fr hr]

theorem QueryFinalTs_perm (idx : Index) (ts : List T) : (QueryFinalTs idx ts).Perm ts := by
  unfold QueryFinalTs
  by_cases h : ts = []
  · rw [if_pos h]
  · rw [if_neg h]
    match hf : computeFreqs idx ts with
    | none => exact List.Perm.refl ts
    | some freq =>
      have hlen : freq.length = ts.length := computeFreqs_length idx ts freq hf
      have hperm : (sortByFreq (ts.zip freq)).Perm (ts.zip freq) :=
        List.perm_insertionSort _ _
      have hmap := hperm.map Prod.fst
      rw [List.map_fst_zip ts freq (le_of_eq hlen.symm)] at hmap
      exact hmap

/-- C9: `queryTrigrams(ts)` hands back the caller's trigram slice reordered by
postings-list frequency: the post-call contents are always a permutation of
the pre-call contents, and on a concrete index and query they differ from the
pre-call contents. -/
theorem queryTrigrams_permutes_ts :
    (∀ (idx : Index) (ts : List T), (QueryFinalTs idx ts).Perm ts) ∧
    QueryFinalTs (NewIndex [[97, 98, 99, 100], [97, 98, 99]])
        (Extract [97, 98, 99, 100] []) ≠ Extract [97, 98, 99, 100] [] :=
  ⟨QueryFinalTs_perm, by decide⟩

/-- C1 (code bug): on the index built from `["abc"]` and then pruned at
threshold 0, every trigram of the query `[trigram "abc"]` is a present key
with an empty (pruned) postings list; Go's scan
`for freq[nonzero] == 0 { nonzero++ }` then reads `freq[1]` past the end of
the one-element frequency slice and panics, modelled by the `none` result,
instead of returning a well-defined result. -/
theorem queryTrigrams_all_pruned_panics :
    QueryTrigrams (Prune (NewIndex [[97, 98, 99]]) 0).1 [6382179] = none := by
  have h : Prune (NewIndex [[97, 98, 99]]) 0 = pruneWith (NewIndex [[97, 98, 99]]) 0 := by
    unfold Prune
    norm_num
  rw [h]
  decide

/-! ### Invariants of `NewIndex`: postings lists are sorted, bounded,
non-empty under present keys, and contain their documents -/

theorem sorted_le_getLast : ∀ (l : List DocID), l.Sorted (· < ·) →
    ∀ x ∈ l, ∀ y, l.getLast? = some y → x ≤ y := by
  intro l
  induction l with
  | nil => intro _ x hx; exact absurd hx (List.not_mem_nil x)
  | cons a rest ih =>
    intro hs x hx y hy
    obtain ⟨hall, hrest⟩ := List.sorted_cons.mp hs
    match rest with
    | [] =>
      have hxa : x = a := List.mem_singleton.mp hx
      have hya : (some a : Option DocID) = some y := by simpa using hy
      rw [hxa, Option.some_inj.mp hya]
    | b :: rs =>
      rw [List.getLast?_cons_cons] at hy
      rcases List.mem_cons.mp hx with rfl | hx
      · exact le_of_lt (hall y (List.mem_of_getLast?_eq_some hy))
      · exact ih hrest x hx y hy

theorem lookList_lt_of_guard (id : DocID) (idx : Index) (u : T)
    (hb : ∀ d ∈ lookList idx u, d ≤ id)
    (hs : (lookList idx u).Sorted (· < ·))
    (hc : lookList idx u = [] ∨ (lookList idx u).getLast? ≠ some id) :
    ∀ d ∈ lookList idx u, d < id := by
  intro d hd
  rcases hc with hc | hc
  · rw [hc] at hd
    exact absurd hd (List.not_mem_nil d)
  · rcases Nat.lt_or_ge d id with h | h
    · exact h
    · exfalso
      have hd2 : d = id := le_antisymm (hb d hd) h
      subst hd2
      match hy : (lookList idx u).getLast? with
      | none =>
        rw [List.getLast?_eq_none_iff] at hy
        rw [hy] at hd
        exact absurd hd (List.not_mem_nil d)
      | some y =>
        have h1 : d ≤ y := sorted_le_getLast _ hs d hd y hy
        have h2 : y ≤ d := hb y (List.mem_of_getLast?_eq_some hy)
        exact hc (by rw [hy, le_antisymm h2 h1])

theorem insStep_sorted_bound (id : DocID) (idx : Index) (u : T)
    (h : ∀ t, (lookList idx t).Sorted (· < ·) ∧ ∀ d ∈ lookList idx t, d ≤ id) :
    ∀ t, (lookList (insStep id idx u) t).Sorted (· < ·) ∧
      ∀ d ∈ lookList (insStep id idx u) t, d ≤ id := by
  intro t
  by_cases hut : u = t
  · subst hut
    by_cases hc : lookList idx u = [] ∨ (lookList idx u).getLast? ≠ some id
    · have hl : lookList (insStep id idx u) u = lookList idx u ++ [id] := by
        simp only [insStep, if_pos hc]
        rw [lookList_set_self]
        rfl
      rw [hl]
      obtain ⟨hs, hb⟩ := h u
      have hlt : ∀ d ∈ lookList idx u, d < id := lookList_lt_of_guard id idx u hb hs hc
      constructor
      · refine List.pairwise_append.mpr ⟨hs, List.sorted_singleton id, ?_⟩
        intro x hx y hy
        rw [List.mem_singleton.mp hy]
        exact hlt x hx
      · intro d hd
        rcases List.mem_append.mp hd with hd | hd
        · exact hb d hd
        · rw [List.mem_singleton.mp hd]
    · simp only [insStep, if_neg hc]
      exact h u
  · rw [insStep_lookList_ne id idx u t hut]
    exact h t

theorem foldl_insStep_sorted_bound (id : DocID) : ∀ (ts : List T) (idx : Index),
    (∀ t, (lookList idx t).Sorted (· < ·) ∧ ∀ d ∈ lookList idx t, d ≤ id) →
    ∀ t, (lookList (ts.foldl (insStep id) idx) t).Sorted (· < ·) ∧
      ∀ d ∈ lookList (ts.foldl (insStep id) idx) t, d ≤ id := by
  intro ts
  induction ts with
  | nil => intro idx h; exact h
  | cons u rest ih =>
    intro idx h
    rw [List.foldl_cons]
    exact ih (insStep id idx u) (insStep_sorted_bound id idx u h)

theorem buildDocs_sorted_bound : ∀ (docs : List (List Byte)) (idx : Index) (id0 : Nat),
    (∀ t, (lookList idx t).Sorted (· < ·) ∧ ∀ d ∈ lookList idx t, d < id0) →
    ∀ t, (lookList (buildDocs idx docs id0) t).Sorted (· < ·) ∧
      ∀ d ∈ lookList (buildDocs idx docs id0) t, d < id0 + docs.length := by
  intro docs
  induction docs with
  | nil =>
    intro idx id0 h t
    rw [buildDocs]
    exact ⟨(h t).1, fun d hd => by simpa using (h t).2 d hd⟩
  | cons d rest ih =>
    intro idx id0 h
    rw [buildDocs]
    have h1 : ∀ t, (lookList idx t).Sorted (· < ·) ∧ ∀ e ∈ lookList idx t, e ≤ id0 :=
      fun t => ⟨(h t).1, fun e he => le_of_lt ((h t).2 e he)⟩
    have h2 := foldl_insStep_sorted_bound id0 (ExtractAll d []) idx h1
    have h3 : ∀ t, (lookList ((ExtractAll d []).foldl (insStep id0) idx) t).Sorted (· < ·) ∧
        ∀ e ∈ lookList ((ExtractAll d []).foldl (insStep id0) idx) t, e < id0 + 1 :=
      fun t => ⟨(h2 t).1, fun e he => Nat.lt_succ_of_le ((h2 t).2 e he)⟩
    intro t
    refine ⟨(ih _ (id0 + 1) h3 t).1, fun e he => ?_⟩
    have he2 := (ih _ (id0 + 1) h3 t).2 e he
    simp only [List.length_cons]
    rw [show id0 + (rest.length + 1) = id0 + 1 + rest.length from by omega]
    exact he2

theorem lookList_empty (t : T) : lookList ([] : Index) t = [] := rfl

theorem newIndex_sorted_bound (docs : List (List Byte)) (t : T) :
    (lookList (NewIndex docs) t).Sorted (· < ·) ∧
      ∀ d ∈ lookList (NewIndex docs) t, d < docs.length := by
  unfold NewIndex
  by_cases ht : t = tAllDocIDs
  · subst ht
    rw [lookList_set_self]
    match docs with
    | [] => exact ⟨List.sorted_nil, fun d hd => absurd hd (List.not_mem_nil d)⟩
    | d :: rest =>
      constructor
      · simpa [sliceList] using List.sorted_lt_range (d :: rest).length
      · intro e he
        simp only [sliceList, List.isEmpty_cons, Option.getD_some] at he
        simp only [Bool.false_eq_true, if_false, Option.getD_some] at he
        exact List.mem_range.mp he
  · rw [lookList_set_ne _ _ _ _ (fun h => ht h.symm)]
    have hbase : ∀ u, (lookList ([] : Index) u).Sorted (· < ·) ∧
        ∀ d ∈ lookList ([] : Index) u, d < 0 := by
      intro u
      rw [lookList_empty]
      exact ⟨List.sorted_nil, fun d hd => absurd hd (List.not_mem_nil d)⟩
    have hsb := buildDocs_sorted_bound docs [] 0 hbase t
    exact ⟨hsb.1, fun d hd => by simpa using hsb.2 d hd⟩

theorem insStep_shape (id : DocID) (idx : Index) (u : T)
    (h : ∀ t v, idxGet idx t = some v → ∃ l, v = some l ∧ l ≠ []) :
    ∀ t v, idxGet (insStep id idx u) t = some v → ∃ l, v = some l ∧ l ≠ [] := by
  intro t v hget
  by_cases hut : u = t
  · subst hut
    rw [insStep_get_self] at hget
    by_cases hc : lookList idx u = [] ∨ (lookList idx u).getLast? ≠ some id
    · rw [if_pos hc] at hget
      exact ⟨lookList idx u ++ [id], (Option.some_inj.mp hget).symm, by simp⟩
    · rw [if_neg hc] at hget
      exact h u v hget
  · rw [insStep_get_ne id idx u t hut] at hget
    exact h t v hget

theorem foldl_insStep_shape (id : DocID) : ∀ (ts : List T) (idx : Index),
    (∀ t v, idxGet idx t = some v → ∃ l, v = some l ∧ l ≠ []) →
    ∀ t v, idxGet (ts.foldl (insStep id) idx) t = some v → ∃ l, v = some l ∧ l ≠ [] := by
  intro ts
  induction ts with
  | nil => intro idx h; exact h
  | cons u rest ih =>
    intro idx h
    rw [List.foldl_cons]
    exact ih (insStep id idx u) (insStep_shape id idx u h)

theorem buildDocs_shape : ∀ (docs : List (List Byte)) (idx : Index) (id0 : Nat),
    (∀ t v, idxGet idx t = some v → ∃ l, v = some l ∧ l ≠ []) →
    ∀ t v, idxGet (buildDocs idx docs id0) t = some v → ∃ l, v = some l ∧ l ≠ [] := by
  intro docs
  induction docs with
  | nil => intro idx id0 h; rw [buildDocs]; exact h
  | cons d rest ih =>
    intro idx id0 h
    rw [buildDocs]
    exact ih _ (id0 + 1) (foldl_insStep_shape id0 (ExtractAll d []) idx h)

theorem newIndex_shape (docs : List (List Byte)) (t : T) (hne : t ≠ tAllDocIDs) :
    idxGet (NewIndex docs) t = none ∨
      ∃ l, idxGet (NewIndex docs) t = some (some l) ∧ l ≠ [] := by
  unfold NewIndex
  rw [idxGet_set_ne _ _ _ _ (fun h => hne h.symm)]
  match hget : idxGet (buildDocs [] docs 0) t with
  | none => exact Or.inl rfl
  | some v =>
    obtain ⟨l, rfl, hl⟩ := buildDocs_shape docs [] 0
      (fun u v h => absurd h (by rw [show idxGet [] u = none from rfl]; simp)) t v hget
    exact Or.inr ⟨l, rfl, hl⟩

theorem insStep_mem_preserved (id : DocID) (idx : Index) (u t : T) (d : DocID)
    (hd : d ∈ lookList idx t) : d ∈ lookList (insStep id idx u) t := by
  by_cases hut : u = t
  · subst hut
    by_cases hc : lookList idx u = [] ∨ (lookList idx u).getLast? ≠ some id
    · have hl : lookList (insStep id idx u) u = lookList idx u ++ [id] := by
        simp only [insStep, if_pos hc]
        rw [lookList_set_self]
        rfl
      rw [hl]
      exact List.mem_append.mpr (Or.inl hd)
    · simp only [insStep, if_neg hc]
      exact hd
  · rw [insStep_lookList_ne id idx u t hut]
    exact hd

theorem foldl_insStep_mem_preserved (id : DocID) : ∀ (ts : List T) (idx : Index) (t : T)
    (d : DocID), d ∈ lookList idx t → d ∈ lookList (ts.foldl (insStep id) idx) t := by
  intro ts
  induction ts with
  | nil => intro idx t d hd; exact hd
  | cons u rest ih =>
    intro idx t d hd
    rw [List.foldl_cons]
    exact ih (insStep id idx u) t d (insStep_mem_preserved id idx u t d hd)

theorem buildDocs_mem_preserved : ∀ (docs : List (List Byte)) (idx : Index) (id0 : Nat)
    (t : T) (d : DocID), d ∈ lookList idx t → d ∈ lookList (buildDocs idx docs id0) t := by
  intro docs
  induction docs with
  | nil => intro idx id0 t d hd; rw [buildDocs]; exact hd
  | cons doc rest ih =>
    intro idx id0 t d hd
    rw [buildDocs]
    exact ih _ (id0 + 1) t d (foldl_insStep_mem_preserved id0 (ExtractAll doc []) idx t d hd)

theorem foldl_insStep_mem_self (id : DocID) : ∀ (ts : List T) (idx : Index) (t : T),
    t ∈ ts → id ∈ lookList (ts.foldl (insStep id) idx) t := by
  intro ts
  induction ts with
  | nil => intro idx t ht; exact absurd ht (List.not_mem_nil t)
  | cons u rest ih =>
    intro idx t ht
    rw [List.foldl_cons]
    rcases List.mem_cons.mp ht with rfl | ht
    · have hdone := insStep_done id idx t
      have : id ∈ lookList (insStep id idx t) t := List.mem_of_getLast?_eq_some hdone.2
      exact foldl_insStep_mem_preserved id rest (insStep id idx t) t id this
    · exact ih (insStep id idx u) t ht

theorem buildDocs_mem : ∀ (docs : List (List Byte)) (idx : Index) (id0 : Nat) (i : Nat)
    (hi : i < docs.length) (t : T), t ∈ triWindows docs[i] →
      (id0 + i) ∈ lookList (buildDocs idx docs id0) t := by
  intro docs
  induction docs with
  | nil => intro idx id0 i hi; exact absurd hi (by simp)
  | cons d rest ih =>
    intro idx id0 i hi t ht
    rw [buildDocs]
    match i with
    | 0 =>
      rw [List.getElem_cons_zero] at ht
      have h1 : id0 ∈ lookList ((ExtractAll d []).foldl (insStep id0) idx) t := by
        apply foldl_insStep_mem_self id0 (ExtractAll d []) idx t
        simpa [ExtractAll] using ht
      simpa using buildDocs_mem_preserved rest ((ExtractAll d []).foldl (insStep id0) idx)
        (id0 + 1) t id0 h1
    | j + 1 =>
      rw [List.getElem_cons_succ] at ht
      have hj : j < rest.length := by simpa using hi
      have hmem := ih ((ExtractAll d []).foldl (insStep id0) idx) (id0 + 1) j hj t ht
      rw [show id0 + (j + 1) = id0 + 1 + j by omega]
      exact hmem

theorem newIndex_mem (docs : List (List Byte)) (i : Nat) (hi : i < docs.length) (t : T)
    (ht : t ∈ triWindows docs[i]) : i ∈ lookList (NewIndex docs) t := by
  have hne : t ≠ tAllDocIDs := triWindows_ne_tAll _ t ht
  unfold NewIndex
  rw [lookList_set_ne _ _ _ _ (fun h => hne h.symm)]
  simpa using buildDocs_mem docs [] 0 i hi t ht

/-! ### A document matches a query built from its own text -/

theorem computeFreqs_present (idx : Index) : ∀ ts : List T,
    (∀ t ∈ ts, idxGet idx t ≠ none) →
    computeFreqs idx ts = some (ts.map (fun t => (lookList idx t).length)) := by
  intro ts
  induction ts with
  | nil => intro _; rfl
  | cons u rest ih =>
    intro h
    match hu : idxGet idx u with
    | none => exact absurd hu (h u (List.mem_cons_self u rest))
    | some d =>
      have hd : idxVal idx u = d := by rw [idxVal, hu]; rfl
      have hlen : goLen d = (lookList idx u).length := by rw [lookList, hd]; rfl
      rw [computeFreqs, hu, ih (fun t ht => h t (List.mem_cons_of_mem u ht))]
      simp [hlen]

theorem mem_zip_map (g : T → Nat) : ∀ (ts : List T) (p : T × Nat),
    p ∈ ts.zip (ts.map g) → p.1 ∈ ts ∧ p.2 = g p.1 := by
  intro ts
  induction ts with
  | nil => intro p hp; simp at hp
  | cons u rest ih =>
    intro p hp
    rw [List.map_cons, List.zip_cons_cons] at hp
    rcases List.mem_cons.mp hp with rfl | hp
    · exact ⟨List.mem_cons_self u rest, rfl⟩
    · obtain ⟨h1, h2⟩ := ih p hp
      exact ⟨List.mem_cons_of_mem u h1, h2⟩

theorem Filter_mem (idx : Index) : ∀ (ts : List T) (docs : List DocID) (i : DocID),
    i ∈ docs → docs.Sorted (· < ·) →
    (∀ t ∈ ts, ∃ l, idxGet idx t = some (some l) ∧ i ∈ l ∧ l.Sorted (· < ·)) →
    i ∈ Filter idx docs ts := by
  intro ts
  induction ts with
  | nil => intro docs i hi _ _; exact hi
  | cons t rest ih =>
    intro docs i hi hsort hts
    obtain ⟨l, hl, hil, hls⟩ := hts t (List.mem_cons_self t rest)
    simp only [Filter, hl]
    exact ih (intersect docs l) i ((mem_intersect hsort hls i).mpr ⟨hi, hil⟩)
      (intersect_sorted hsort hls) (fun u hu => hts u (List.mem_cons_of_mem t hu))

/-- C5: for every document collection `docs` and every document `docs[i]` of
at least 3 bytes, on the index built from `docs` with no pruning performed,
`query(docs[i])` succeeds and its result includes `i`. -/
theorem query_own_document (docs : List (List Byte)) (i : Nat) (hi : i < docs.length)
    (hlen : 3 ≤ docs[i].length) :
    (Query (NewIndex docs) docs[i]).isSome ∧
      i ∈ (Query (NewIndex docs) docs[i]).getD [] := by
  have hwindows : triWindows docs[i] ≠ [] := by
    match hd2 : docs[i] with
    | [] => rw [hd2] at hlen; simp at hlen
    | [b0] => rw [hd2] at hlen; simp at hlen
    | [b0, b1] => rw [hd2] at hlen; simp at hlen
    | b0 :: b1 :: b2 :: r => simp [triWindows]
  have hts_ne : Extract docs[i] [] ≠ [] := by
    intro h
    match hw : triWindows docs[i], hwindows with
    | t :: ws, _ =>
      have hmem : t ∈ Extract docs[i] [] :=
        (mem_Extract _ t).mpr (by rw [hw]; exact List.mem_cons_self t ws)
      rw [h] at hmem
      exact absurd hmem (List.not_mem_nil t)
  have hpresent : ∀ t ∈ Extract docs[i] [], idxGet (NewIndex docs) t ≠ none := by
    intro t ht hnone
    have htw : t ∈ triWindows docs[i] := (mem_Extract _ t).mp ht
    have hmem := newIndex_mem docs i hi t htw
    rw [lookList, idxVal, hnone] at hmem
    simp [sliceList] at hmem
  have hpack : ∀ t ∈ Extract docs[i] [], ∃ l, idxGet (NewIndex docs) t = some (some l) ∧
      i ∈ l ∧ l.Sorted (· < ·) ∧ lookList (NewIndex docs) t = l := by
    intro t ht
    have htw : t ∈ triWindows docs[i] := (mem_Extract _ t).mp ht
    have hmem := newIndex_mem docs i hi t htw
    have hne : t ≠ tAllDocIDs := triWindows_ne_tAll _ t htw
    rcases newIndex_shape docs t hne with hn | ⟨l, hget, hl⟩
    · exact absurd hn (hpresent t ht)
    · have hlook : lookList (NewIndex docs) t = l := by rw [lookList, idxVal, hget]; rfl
      exact ⟨l, hget, hlook ▸ hmem, hlook ▸ (newIndex_sorted_bound docs t).1, hlook⟩
  have hfr := computeFreqs_present (NewIndex docs) (Extract docs[i] []) hpresent
  have hperm : (sortByFreq ((Extract docs[i] []).zip ((Extract docs[i] []).map
        (fun t => (lookList (NewIndex docs) t).length)))).Perm
      ((Extract docs[i] []).zip ((Extract docs[i] []).map
        (fun t => (lookList (NewIndex docs) t).length))) :=
    List.perm_insertionSort _ _
  have hprop : ∀ p ∈ sortByFreq ((Extract docs[i] []).zip ((Extract docs[i] []).map
        (fun t => (lookList (NewIndex docs) t).length))),
      p.1 ∈ Extract docs[i] [] ∧ p.2 = (lookList (NewIndex docs) p.1).length :=
    fun p hp => mem_zip_map _ (Extract docs[i] []) p (hperm.subset hp)
  obtain ⟨t0, f0, rest, hsorted⟩ : ∃ t0 f0 rest,
      sortByFreq ((Extract docs[i] []).zip ((Extract docs[i] []).map
        (fun t => (lookList (NewIndex docs) t).length))) = (t0, f0) :: rest := by
    match h2 : sortByFreq ((Extract docs[i] []).zip ((Extract docs[i] []).map
        (fun t => (lookList (NewIndex docs) t).length))) with
    | [] =>
      exfalso
      have hlen2 := hperm.length_eq
      rw [h2] at hlen2
      rw [List.length_zip, List.length_map, Nat.min_self] at hlen2
      exact hts_ne (List.length_eq_zero.mp hlen2.symm)
    | (t0, f0) :: rest => exact ⟨t0, f0, rest, rfl⟩
  have hp0 : t0 ∈ Extract docs[i] [] ∧ f0 = (lookList (NewIndex docs) t0).length :=
    hprop (t0, f0) (by rw [hsorted]; exact List.mem_cons_self _ _)
  obtain ⟨l0, hget0, hil0, hsort0, hlook0⟩ := hpack t0 hp0.1
  have hf0 : ¬ (((t0, f0).2 == 0) = true) := by
    have : f0 ≠ 0 := by
      rw [hp0.2, hlook0]
      exact fun h => absurd (List.length_eq_zero.mp h ▸ hil0) (List.not_mem_nil i)
    simpa using this
  unfold Query
  simp only [QueryTrigrams, if_neg hts_ne, hfr]
  rw [hsorted, List.dropWhile_cons, if_neg hf0]
  constructor
  · rfl
  · show i ∈ Filter (NewIndex docs) (lookList (NewIndex docs) t0) (rest.map Prod.fst)
    apply Filter_mem (NewIndex docs) (rest.map Prod.fst) (lookList (NewIndex docs) t0) i
      (hlook0 ▸ hil0) (hlook0 ▸ hsort0)
    intro u hu
    obtain ⟨p, hp, hpu⟩ := List.mem_map.mp hu
    have hpmem : p ∈ sortByFreq ((Extract docs[i] []).zip ((Extract docs[i] []).map
        (fun t => (lookList (NewIndex docs) t).length))) := by
      rw [hsorted]
      exact List.mem_cons_of_mem _ hp
    obtain ⟨l, hget, hmem, hsort, -⟩ := hpack p.1 (hprop p hpmem).1
    exact ⟨l, hpu ▸ hget, hmem, hsort⟩

theorem query_own_document_witness :
    (0 < ([[97, 98, 99, 100]] : List (List Byte)).length) ∧
    3 ≤ ([[97, 98, 99, 100]] : List (List Byte))[0].length ∧
    ((Query (NewIndex [[97, 98, 99, 100]]) [[97, 98, 99, 100]][0]).isSome ∧
      0 ∈ (Query (NewIndex [[97, 98, 99, 100]]) [[97, 98, 99, 100]][0]).getD []) :=
  ⟨by decide, by decide, query_own_document [[97, 98, 99, 100]] 0 (by decide) (by decide)⟩

/-! ### `sort.Search` and the behaviour of one `Delete` step -/

theorem goSearchLoop_spec (f : Nat → Bool) : ∀ (nmeas i j : Nat), j - i = nmeas → i ≤ j →
    i ≤ goSearchLoop f i j ∧ goSearchLoop f i j ≤ j ∧
      (goSearchLoop f i j < j → f (goSearchLoop f i j) = true) ∧
      (i < goSearchLoop f i j → f (goSearchLoop f i j - 1) = false) := by
  intro nmeas
  induction nmeas using Nat.strong_induction_on with
  | _ nmeas ih =>
    intro i j hn hij
    by_cases hlt : i < j
    · have hm1 : i ≤ (i + j) / 2 := by omega
      have hm2 : (i + j) / 2 < j := by omega
      cases hf : f ((i + j) / 2) with
      | true =>
        have hunfold : goSearchLoop f i j = goSearchLoop f i ((i + j) / 2) := by
          rw [goSearchLoop, dif_pos hlt, if_pos hf]
        obtain ⟨r1, r2, r3, r4⟩ := ih ((i + j) / 2 - i) (by omega) i ((i + j) / 2) rfl hm1
        rw [hunfold]
        refine ⟨r1, by omega, ?_, r4⟩
        intro hr
        rcases Nat.lt_or_ge (goSearchLoop f i ((i + j) / 2)) ((i + j) / 2) with h | h
        · exact r3 h
        · rw [le_antisymm r2 h]
          exact hf
      | false =>
        have hunfold : goSearchLoop f i j = goSearchLoop f ((i + j) / 2 + 1) j := by
          rw [goSearchLoop, dif_pos hlt, if_neg (by rw [hf]; exact Bool.false_ne_true)]
        obtain ⟨r1, r2, r3, r4⟩ :=
          ih (j - ((i + j) / 2 + 1)) (by omega) ((i + j) / 2 + 1) j rfl (by omega)
        rw [hunfold]
        refine ⟨by omega, r2, r3, ?_⟩
        intro hr
        rcases Nat.lt_or_ge ((i + j) / 2 + 1) (goSearchLoop f ((i + j) / 2 + 1) j) with h | h
        · exact r4 h
        · rw [show goSearchLoop f ((i + j) / 2 + 1) j - 1 = (i + j) / 2 from by omega]
          exact hf
    · rw [goSearchLoop, dif_neg hlt]
      exact ⟨le_refl i, hij, fun h => absurd (by omega : i < j) hlt, fun h => absurd h (by omega)⟩

theorem goSearch_spec (n : Nat) (f : Nat → Bool) :
    goSearch n f ≤ n ∧ (goSearch n f < n → f (goSearch n f) = true) ∧
      (0 < goSearch n f → f (goSearch n f - 1) = false) := by
  have h := goSearchLoop_spec f n 0 n rfl (Nat.zero_le n)
  exact ⟨h.2.1, h.2.2.1, h.2.2.2⟩

theorem getD_append_lt (l1 l2 : List DocID) (j : Nat) (h : j < l1.length) :
    (l1 ++ l2).getD j 0 = l1.getD j 0 := by
  rw [List.getD_eq_getElem?_getD, List.getD_eq_getElem?_getD, List.getElem?_append_left h]

theorem getD_append_len (l1 : List DocID) (x : DocID) :
    (l1 ++ [x]).getD l1.length 0 = x := by
  rw [List.getD_eq_getElem?_getD, List.getElem?_concat_length]
  rfl

theorem eraseIdx_append_last : ∀ (old : List DocID) (k : DocID),
    (old ++ [k]).eraseIdx old.length = old := by
  intro old k
  induction old with
  | nil => rfl
  | cons a rest ih => simpa [List.eraseIdx_cons_succ] using ih

theorem getD_mem {l : List DocID} {j : Nat} (h : j < l.length) : l.getD j 0 ∈ l := by
  rw [getD_eq_of_lt h]
  exact List.getElem_mem h

theorem delStep_get_ne (k : DocID) (idx : Index) (t u : T) (hne : t ≠ u) :
    idxGet (delStep k idx t) u = idxGet idx u := by
  match hget : idxGet idx t with
  | none => rw [delStep, hget]
  | some none => rw [delStep, hget]
  | some (some ids) =>
    simp only [delStep, hget]
    by_cases h1 : ids.length = 1 ∧ ids.getD 0 0 = k
    · rw [if_pos h1]
      exact idxGet_erase_ne idx t u hne
    · rw [if_neg h1]
      by_cases h2 : goSearch ids.length (fun j => k ≤ ids.getD j 0) < ids.length ∧
          ids.getD (goSearch ids.length (fun j => k ≤ ids.getD j 0)) 0 = k
      · rw [if_pos h2]
        exact idxGet_set_ne idx t _ u hne
      · rw [if_neg h2]

theorem delStep_of_absent (k : DocID) (idx : Index) (t : T) (h : idxGet idx t = none) :
    delStep k idx t = idx := by
  rw [delStep, h]

theorem delStep_of_nil (k : DocID) (idx : Index) (t : T) (h : idxGet idx t = some none) :
    delStep k idx t = idx := by
  rw [delStep, h]

theorem delStep_noop_lt (k : DocID) (idx : Index) (t : T) (ids : List DocID)
    (hget : idxGet idx t = some (some ids)) (hb : ∀ d ∈ ids, d < k) :
    delStep k idx t = idx := by
  simp only [delStep, hget]
  have hp : ∀ j, j < ids.length → decide (k ≤ ids.getD j 0) = false := by
    intro j hj
    simpa using Nat.not_le.mpr (hb _ (getD_mem hj))
  have h1 : ¬ (ids.length = 1 ∧ ids.getD 0 0 = k) := by
    rintro ⟨hl, hh⟩
    have h0 : (0 : Nat) < ids.length := by omega
    have hlt := hb _ (getD_mem h0)
    rw [hh] at hlt
    exact lt_irrefl k hlt
  rw [if_neg h1]
  obtain ⟨r1, r2, -⟩ := goSearch_spec ids.length (fun j => decide (k ≤ ids.getD j 0))
  have hnot : ¬ (goSearch ids.length (fun j => k ≤ ids.getD j 0) < ids.length ∧
      ids.getD (goSearch ids.length (fun j => k ≤ ids.getD j 0)) 0 = k) := by
    rintro ⟨hlt2, -⟩
    have := r2 hlt2
    rw [hp _ hlt2] at this
    exact Bool.false_ne_true this
  rw [if_neg hnot]

theorem delStep_restore (k : DocID) (idx : Index) (t : T) (old : List DocID)
    (hget : idxGet idx t = some (some (old ++ [k])))
    (hb : ∀ d ∈ old, d < k) :
    delStep k idx t = if old = [] then idxErase idx t else idxSet idx t (some old) := by
  simp only [delStep, hget]
  have hlen : (old ++ [k]).length = old.length + 1 := by simp
  by_cases hold : old = []
  · subst hold
    rw [if_pos (by simp), if_pos rfl]
  · have holdpos : 0 < old.length := List.length_pos.mpr hold
    have h1 : ¬ ((old ++ [k]).length = 1 ∧ (old ++ [k]).getD 0 0 = k) := by
      rintro ⟨hl, -⟩
      rw [hlen] at hl
      omega
    rw [if_neg h1, if_neg hold]
    have hplow : ∀ j, j < old.length → decide (k ≤ (old ++ [k]).getD j 0) = false := by
      intro j hj
      rw [getD_append_lt old [k] j hj]
      simpa using Nat.not_le.mpr (hb _ (getD_mem hj))
    have hphigh : decide (k ≤ (old ++ [k]).getD old.length 0) = true := by
      rw [getD_append_len]
      simp
    obtain ⟨r1, r2, r3⟩ := goSearch_spec (old ++ [k]).length
      (fun j => decide (k ≤ (old ++ [k]).getD j 0))
    have hge : old.length ≤ goSearch (old ++ [k]).length
        (fun j => decide (k ≤ (old ++ [k]).getD j 0)) := by
      by_contra hcon
      push_neg at hcon
      have hlt2 : goSearch (old ++ [k]).length
          (fun j => decide (k ≤ (old ++ [k]).getD j 0)) < (old ++ [k]).length := by omega
      have h5 := r2 hlt2
      rw [hplow _ hcon] at h5
      exact Bool.false_ne_true h5
    have hle : goSearch (old ++ [k]).length
        (fun j => decide (k ≤ (old ++ [k]).getD j 0)) ≤ old.length := by
      by_contra hcon
      push_neg at hcon
      have heq : goSearch (old ++ [k]).length
          (fun j => decide (k ≤ (old ++ [k]).getD j 0)) = old.length + 1 := by omega
      have hpos : 0 < goSearch (old ++ [k]).length
          (fun j => decide (k ≤ (old ++ [k]).getD j 0)) := by omega
      have h6 := r3 hpos
      rw [heq] at h6
      simp only [Nat.add_sub_cancel] at h6
      rw [hphigh] at h6
      simp at h6
    have hr : goSearch (old ++ [k]).length
        (fun j => decide (k ≤ (old ++ [k]).getD j 0)) = old.length :=
      le_antisymm hle hge
    rw [if_pos ⟨by rw [hr]; omega, by rw [hr, getD_append_len]⟩, hr, eraseIdx_append_last]

/-! ### Insert followed by Delete restores the per-trigram postings -/

theorem foldl_preserves_done (step : Index → T → Index) (Done : Index → T → Prop)
    (Inv : Index → Prop) (Good : T → Prop)
    (hInv : ∀ idx u, Good u → Inv idx → Inv (step idx u))
    (hframe : ∀ idx u t, Good u → Good t → Inv idx → Done idx t → Done (step idx u) t) :
    ∀ (ts : List T) (idx : Index) (t : T), (∀ u ∈ ts, Good u) → Good t → Inv idx →
      Done idx t → Done (ts.foldl step idx) t := by
  intro ts
  induction ts with
  | nil => intro idx t _ _ _ hd; exact hd
  | cons u rest ih =>
    intro idx t hgood hgt hinv hd
    rw [List.foldl_cons]
    exact ih (step idx u) t (fun v hv => hgood v (List.mem_cons_of_mem u hv)) hgt
      (hInv idx u (hgood u (List.mem_cons_self u rest)) hinv)
      (hframe idx u t (hgood u (List.mem_cons_self u rest)) hgt hinv hd)

theorem foldl_establishes_done (step : Index → T → Index) (Done : Index → T → Prop)
    (Inv : Index → Prop) (Good : T → Prop)
    (hInv : ∀ idx u, Good u → Inv idx → Inv (step idx u))
    (hmk : ∀ idx u, Good u → Inv idx → Done (step idx u) u)
    (hframe : ∀ idx u t, Good u → Good t → Inv idx → Done idx t → Done (step idx u) t) :
    ∀ (ts : List T) (idx : Index), (∀ u ∈ ts, Good u) → Inv idx →
      ∀ t ∈ ts, Done (ts.foldl step idx) t := by
  intro ts
  induction ts with
  | nil => intro idx _ _ t ht; exact absurd ht (List.not_mem_nil t)
  | cons u rest ih =>
    intro idx hgood hinv t ht
    rw [List.foldl_cons]
    rcases List.mem_cons.mp ht with rfl | ht
    · exact foldl_preserves_done step Done Inv Good hInv hframe rest (step idx t) t
        (fun v hv => hgood v (List.mem_cons_of_mem t hv))
        (hgood t (List.mem_cons_self t rest))
        (hInv idx t (hgood t (List.mem_cons_self t rest)) hinv)
        (hmk idx t (hgood t (List.mem_cons_self t rest)) hinv)
    · exact ih (step idx u) (fun v hv => hgood v (List.mem_cons_of_mem u hv))
        (hInv idx u (hgood u (List.mem_cons_self u rest)) hinv) t ht

theorem idxVal_eq_some (idx : Index) (t : T) (l : List DocID) (h : idxVal idx t = some l) :
    idxGet idx t = some (some l) := by
  match hget : idxGet idx t with
  | none => rw [idxVal, hget] at h; exact absurd h (by simp)
  | some v => rw [idxVal, hget] at h; rw [Option.getD_some] at h; rw [h]

/-- C4 (amended): on a freshly built index with no pruning, for a document ID
`k` that is at least the number of documents (hence fresh: greater than every
ID stored in any postings list), `insert(s, k)` followed by `delete(s, k)`
restores every trigram of `s` to its pre-insert postings state — a key absent
before the insert is absent again after the delete. -/
theorem insert_delete_restores (docs : List (List Byte)) (s : List Byte) (k : DocID)
    (hk : docs.length ≤ k) :
    ∀ t ∈ ExtractAll s [], idxGet (Delete (Insert (NewIndex docs) s k) s k) t =
      idxGet (NewIndex docs) t := by
  intro t ht
  have hwin : ExtractAll s [] = triWindows s := by simp [ExtractAll]
  rw [hwin] at ht
  -- every document ID stored in the fresh index is below k
  have hbound : ∀ u : T, ∀ d ∈ lookList (NewIndex docs) u, d < k :=
    fun u d hd => lt_of_lt_of_le ((newIndex_sorted_bound docs u).2 d hd) hk
  -- the inserted index holds exactly the old list with k appended, per trigram of s
  have hins : ∀ u ∈ Extract s [],
      idxGet (Insert (NewIndex docs) s k) u =
        some (some (lookList (NewIndex docs) u ++ [k])) := by
    intro u hu
    have hne : u ≠ tAllDocIDs := triWindows_ne_tAll s u ((mem_Extract s u).mp hu)
    have hguard : lookList (NewIndex docs) u = [] ∨
        (lookList (NewIndex docs) u).getLast? ≠ some k := by
      match hl : lookList (NewIndex docs) u with
      | [] => exact Or.inl rfl
      | d :: ds =>
        refine Or.inr (fun hlast => ?_)
        have hmem : k ∈ lookList (NewIndex docs) u := by
          rw [hl]
          exact List.mem_of_getLast?_eq_some hlast
        exact lt_irrefl k (hbound u k hmem)
    have h3 := ((insert_extracts_dedup (NewIndex docs) s k).2.2) u hne
    rw [if_pos ⟨hu, hguard⟩] at h3
    exact idxVal_eq_some _ u _ h3
  -- shape of the fresh index at trigrams of s
  have hshape : ∀ u ∈ Extract s [], idxGet (NewIndex docs) u = none ∨
      idxGet (NewIndex docs) u = some (some (lookList (NewIndex docs) u)) ∧
        lookList (NewIndex docs) u ≠ [] := by
    intro u hu
    have hne : u ≠ tAllDocIDs := triWindows_ne_tAll s u ((mem_Extract s u).mp hu)
    rcases newIndex_shape docs u hne with h | ⟨l, hget, hl⟩
    · exact Or.inl h
    · have : lookList (NewIndex docs) u = l := by rw [lookList, idxVal, hget]; rfl
      exact Or.inr ⟨this ▸ hget, this ▸ hl⟩
  -- a key whose value equals the fresh index's value is left alone by delStep
  have hnoop : ∀ idx : Index, ∀ u ∈ Extract s [],
      idxGet idx u = idxGet (NewIndex docs) u → delStep k idx u = idx := by
    intro idx u hu hdone
    rcases hshape u hu with h | ⟨h, -⟩
    · exact delStep_of_absent k idx u (hdone.trans h)
    · refine delStep_noop_lt k idx u (lookList (NewIndex docs) u) (hdone.trans h) ?_
      intro d hd
      exact hbound u d hd
  -- a key holding the inserted value is restored by delStep
  have hrestore : ∀ idx : Index, ∀ u ∈ Extract s [],
      idxGet idx u = idxGet (Insert (NewIndex docs) s k) u →
      idxGet (delStep k idx u) u = idxGet (NewIndex docs) u := by
    intro idx u hu hdone
    have hval : idxGet idx u = some (some (lookList (NewIndex docs) u ++ [k])) :=
      hdone.trans (hins u hu)
    rw [delStep_restore k idx u (lookList (NewIndex docs) u) hval (fun d hd => hbound u d hd)]
    rcases hshape u hu with h | ⟨h, hne⟩
    · have hnil : lookList (NewIndex docs) u = [] := by rw [lookList, idxVal, h]; rfl
      rw [if_pos hnil, idxGet_erase_self, h]
    · rw [if_neg hne, idxGet_set_self, h]
  -- run the delete fold
  have hmain := foldl_establishes_done (delStep k)
    (fun idx u => idxGet idx u = idxGet (NewIndex docs) u)
    (fun idx => ∀ u ∈ Extract s [], idxGet idx u = idxGet (NewIndex docs) u ∨
      idxGet idx u = idxGet (Insert (NewIndex docs) s k) u)
    (fun u => u ∈ Extract s [])
    (by
      intro idx u hu hinv v hv
      by_cases huv : u = v
      · subst huv
        rcases hinv u hu with h | h
        · rw [hnoop idx u hu h]
          exact Or.inl h
        · exact Or.inl (hrestore idx u hu h)
      · rw [delStep_get_ne k idx u v huv]
        exact hinv v hv)
    (by
      intro idx u hu hinv
      rcases hinv u hu with h | h
      · rw [hnoop idx u hu h]
        exact h
      · exact hrestore idx u hu h)
    (by
      intro idx u v hu hv hinv hdone
      by_cases huv : u = v
      · subst huv
        rcases hinv u hu with h | h
        · rw [hnoop idx u hu h]
          exact hdone
        · exact hrestore idx u hu h
      · rw [delStep_get_ne k idx u v huv]
        exact hdone)
    (triWindows s) (Insert (NewIndex docs) s k)
    (fun u hu => (mem_Extract s u).mpr hu)
    (fun u _ => Or.inr rfl)
    t ht
  rw [Delete, hwin]
  exact hmain

theorem insert_delete_restores_witness :
    ([[97, 98, 99]] : List (List Byte)).length ≤ 1 ∧
    (6382180 : T) ∈ ExtractAll [97, 98, 100] [] ∧
    idxGet (Delete (Insert (NewIndex [[97, 98, 99]]) [97, 98, 100] 1) [97, 98, 100] 1)
        6382180 = idxGet (NewIndex [[97, 98, 99]]) 6382180 :=
  ⟨by decide, by decide,
   insert_delete_restores [[97, 98, 99]] [97, 98, 100] 1 (by decide) 6382180 (by decide)⟩

/-- C4 is false as stated for every document ID `k`: re-inserting the only
document of `NewIndex(["abc"])` under its own ID 0 and then deleting it
removes the key for trigram "abc" entirely, though before the insert that key
held the postings list `[0]`. -/
theorem insert_delete_counterexample :
    idxGet (Delete (Insert (NewIndex [[97, 98, 99]]) [97, 98, 99] 0) [97, 98, 99] 0)
        6382179 = none ∧
    idxGet (NewIndex [[97, 98, 99]]) 6382179 = some (some [0]) := by
  constructor
  · decide
  · decide

/-! ### `Prune` -/

theorem idxGet_map_prune (m : ℤ) : ∀ (idx : Index) (t : T),
    idxGet (idx.map (fun e =>
        if e.1 ≠ tAllDocIDs ∧ m < ((sliceList e.2).length : ℤ) then (e.1, none) else e)) t =
      (idxGet idx t).map
        (fun v => if t ≠ tAllDocIDs ∧ m < ((sliceList v).length : ℤ) then none else v) := by
  intro idx
  induction idx with
  | nil => intro t; simp [idxGet]
  | cons e rest ih =>
    intro t
    rw [List.map_cons]
    by_cases he : e.1 = t
    · by_cases hc : e.1 ≠ tAllDocIDs ∧ m < ((sliceList e.2).length : ℤ)
      · rw [if_pos hc]
        rw [show idxGet ((e.1, none) :: List.map _ rest) t = some none by simp [idxGet, he]]
        rw [show idxGet (e :: rest) t = some e.2 by simp [idxGet, he]]
        rw [Option.map_some', if_pos (he ▸ hc)]
      · rw [if_neg hc]
        rw [show idxGet (e :: List.map _ rest) t = some e.2 by simp [idxGet, he]]
        rw [show idxGet (e :: rest) t = some e.2 by simp [idxGet, he]]
        rw [Option.map_some', if_neg (fun h => hc (he ▸ h))]
    · have hkey : ∀ w, idxGet ((e.1, w) :: List.map (fun e =>
          if e.1 ≠ tAllDocIDs ∧ m < ((sliceList e.2).length : ℤ) then (e.1, none) else e)
            rest) t = idxGet (List.map (fun e =>
          if e.1 ≠ tAllDocIDs ∧ m < ((sliceList e.2).length : ℤ) then (e.1, none) else e)
            rest) t := by
        intro w
        simp [idxGet, he]
      by_cases hc : e.1 ≠ tAllDocIDs ∧ m < ((sliceList e.2).length : ℤ)
      · rw [if_pos hc, hkey none, ih t]
        rw [show idxGet (e :: rest) t = idxGet rest t by simp [idxGet, he]]
      · rw [if_neg hc, show (e : T × GoSlice) = (e.1, e.2) from rfl, hkey e.2, ih t]
        rw [show idxGet (e :: rest) t = idxGet rest t by simp [idxGet, he]]

theorem prune_count_eq (m : ℤ) (hm : 0 ≤ m) : ∀ idx : Index,
    (((idx.map (fun e =>
        if e.1 ≠ tAllDocIDs ∧ m < ((sliceList e.2).length : ℤ) then (e.1, none) else e)).zip
          idx).filter (fun p => decide (p.1.2 ≠ p.2.2))).length =
      (idx.filter (fun e =>
        decide (e.1 ≠ tAllDocIDs ∧ m < ((sliceList e.2).length : ℤ)))).length := by
  intro idx
  induction idx with
  | nil => rfl
  | cons e rest ih =>
    by_cases hc : e.1 ≠ tAllDocIDs ∧ m < ((sliceList e.2).length : ℤ)
    · have hne : e.2 ≠ none := by
        intro h
        have h2 := hc.2
        rw [h] at h2
        simp [sliceList] at h2
        omega
      rw [List.map_cons, List.zip_cons_cons, if_pos hc, List.filter_cons, List.filter_cons]
      have hb1 : decide (((e.1, (none : GoSlice)), e).1.2 ≠
          ((e.1, (none : GoSlice)), e).2.2) = true := by
        simp only [ne_eq, decide_not]
        simp [Ne.symm hne]
      have hb2 : decide (e.1 ≠ tAllDocIDs ∧ m < ((sliceList e.2).length : ℤ)) = true :=
        decide_eq_true hc
      rw [if_pos hb1, if_pos hb2]
      simp only [List.length_cons, ih]
    · rw [List.map_cons, List.zip_cons_cons, if_neg hc, List.filter_cons, List.filter_cons]
      have hb1 : ¬ (decide ((e, e).1.2 ≠ (e, e).2.2) = true) := by simp
      have hb2 : ¬ (decide (e.1 ≠ tAllDocIDs ∧ m < ((sliceList e.2).length : ℤ)) = true) := by
        simpa using hc
      rw [if_neg hb1, if_neg hb2]
      exact ih

/-- C7: after `prune(p)` with threshold fraction `p ≥ 0`, every remaining
non-empty postings list other than the universal list is unchanged and has
length at most `⌊p * |universal list|⌋`; pruning leaves the universal list and
the ordered key sequence untouched (pruned keys stay present, bound to an
empty list); the returned count is exactly the number of entries whose list
was emptied, and it is zero when no list exceeds the threshold. -/
theorem prune_spec (idx : Index) (pct : ℚ) (hp : 0 ≤ pct) :
    (∀ t, t ≠ tAllDocIDs → lookList (Prune idx pct).1 t ≠ [] →
      ((lookList (Prune idx pct).1 t).length : ℤ) ≤
          ⌊pct * ((lookList idx tAllDocIDs).length : ℚ)⌋ ∧
        lookList (Prune idx pct).1 t = lookList idx t) ∧
    idxGet (Prune idx pct).1 tAllDocIDs = idxGet idx tAllDocIDs ∧
    (Prune idx pct).1.map Prod.fst = idx.map Prod.fst ∧
    (Prune idx pct).2 =
      (((Prune idx pct).1.zip idx).filter (fun p => decide (p.1.2 ≠ p.2.2))).length ∧
    ((∀ e ∈ idx, e.1 ≠ tAllDocIDs →
        ((sliceList e.2).length : ℤ) ≤ ⌊pct * ((lookList idx tAllDocIDs).length : ℚ)⌋) →
      (Prune idx pct).2 = 0) := by
  have hm : (0 : ℤ) ≤ ⌊pct * ((lookList idx tAllDocIDs).length : ℚ)⌋ := by
    apply Int.le_floor.mpr
    push_cast
    exact mul_nonneg hp (Nat.cast_nonneg _)
  have hfst : (Prune idx pct).1 = idx.map (fun e =>
      if e.1 ≠ tAllDocIDs ∧ ⌊pct * ((lookList idx tAllDocIDs).length : ℚ)⌋ <
          ((sliceList e.2).length : ℤ) then (e.1, none) else e) := rfl
  have hsnd : (Prune idx pct).2 = (idx.filter (fun e =>
      decide (e.1 ≠ tAllDocIDs ∧ ⌊pct * ((lookList idx tAllDocIDs).length : ℚ)⌋ <
        ((sliceList e.2).length : ℤ)))).length := rfl
  rw [hfst, hsnd]
  refine ⟨?_, ?_, ?_, ?_, ?_⟩
  · intro t hne hnonempty
    have hget := idxGet_map_prune ⌊pct * ((lookList idx tAllDocIDs).length : ℚ)⌋ idx t
    match hv : idxGet idx t with
    | none =>
      exfalso
      rw [hv] at hget
      rw [lookList, idxVal, hget] at hnonempty
      simp [sliceList] at hnonempty
    | some v =>
      rw [hv, Option.map_some'] at hget
      by_cases hc : t ≠ tAllDocIDs ∧
          ⌊pct * ((lookList idx tAllDocIDs).length : ℚ)⌋ < ((sliceList v).length : ℤ)
      · exfalso
        rw [if_pos hc] at hget
        rw [lookList, idxVal, hget] at hnonempty
        simp [sliceList] at hnonempty
      · rw [if_neg hc] at hget
        have hlook : lookList (List.map (fun e =>
            if e.1 ≠ tAllDocIDs ∧ ⌊pct * ((lookList idx tAllDocIDs).length : ℚ)⌋ <
              ((sliceList e.2).length : ℤ) then (e.1, none) else e) idx) t =
            sliceList v := by
          rw [lookList, idxVal, hget]
          rfl
        have hlook2 : lookList idx t = sliceList v := by
          rw [lookList, idxVal, hv]
          rfl
        refine ⟨?_, by rw [hlook, hlook2]⟩
        rw [hlook]
        rcases not_and_or.mp hc with h | h
        · exact absurd hne (by simpa using h)
        · omega
  · have hget := idxGet_map_prune ⌊pct * ((lookList idx tAllDocIDs).length : ℚ)⌋ idx
      tAllDocIDs
    rw [show (fun v : GoSlice => if tAllDocIDs ≠ tAllDocIDs ∧
        ⌊pct * ((lookList idx tAllDocIDs).length : ℚ)⌋ < ((sliceList v).length : ℤ)
          then none else v) = fun v => v from by
        funext v
        rw [if_neg (fun h => h.1 rfl)]] at hget
    rw [show ((idxGet idx tAllDocIDs).map fun v => v) = idxGet idx tAllDocIDs from by
      cases idxGet idx tAllDocIDs <;> rfl] at hget
    exact hget
  · show (idx.map _).map Prod.fst = idx.map Prod.fst
    rw [List.map_map]
    apply List.map_congr_left
    intro e _
    by_cases hc : e.1 ≠ tAllDocIDs ∧
        ⌊pct * ((lookList idx tAllDocIDs).length : ℚ)⌋ < ((sliceList e.2).length : ℤ)
    · simp [hc]
    · simp [hc]
  · exact (prune_count_eq ⌊pct * ((lookList idx tAllDocIDs).length : ℚ)⌋ hm idx).symm
  · intro hall
    show (idx.filter _).length = 0
    rw [List.length_eq_zero, List.filter_eq_nil_iff]
    intro e he
    by_cases ht : e.1 = tAllDocIDs
    · simp [ht]
    · have := hall e he ht
      simp only [ne_eq, decide_not, Bool.not_eq_true, decide_eq_false_iff_not, not_and]
      intro
      omega

theorem prune_spec_witness :
    (0 : ℚ) ≤ 1 / 2 ∧
    ((∀ t, t ≠ tAllDocIDs →
        lookList (Prune (NewIndex [[97, 98, 99], [97, 98, 100]]) (1 / 2)).1 t ≠ [] →
      ((lookList (Prune (NewIndex [[97, 98, 99], [97, 98, 100]]) (1 / 2)).1 t).length : ℤ) ≤
          ⌊(1 / 2 : ℚ) *
            ((lookList (NewIndex [[97, 98, 99], [97, 98, 100]]) tAllDocIDs).length : ℚ)⌋ ∧
        lookList (Prune (NewIndex [[97, 98, 99], [97, 98, 100]]) (1 / 2)).1 t =
          lookList (NewIndex [[97, 98, 99], [97, 98, 100]]) t) ∧
    idxGet (Prune (NewIndex [[97, 98, 99], [97, 98, 100]]) (1 / 2)).1 tAllDocIDs =
      idxGet (NewIndex [[97, 98, 99], [97, 98, 100]]) tAllDocIDs ∧
    (Prune (NewIndex [[97, 98, 99], [97, 98, 100]]) (1 / 2)).1.map Prod.fst =
      (NewIndex [[97, 98, 99], [97, 98, 100]]).map Prod.fst ∧
    (Prune (NewIndex [[97, 98, 99], [97, 98, 100]]) (1 / 2)).2 =
      (((Prune (NewIndex [[97, 98, 99], [97, 98, 100]]) (1 / 2)).1.zip
          (NewIndex [[97, 98, 99], [97, 98, 100]])).filter
        (fun p => decide (p.1.2 ≠ p.2.2))).length ∧
    ((∀ e ∈ NewIndex [[97, 98, 99], [97, 98, 100]], e.1 ≠ tAllDocIDs →
        ((sliceList e.2).length : ℤ) ≤
          ⌊(1 / 2 : ℚ) *
            ((lookList (NewIndex [[97, 98, 99], [97, 98, 100]]) tAllDocIDs).length : ℚ)⌋) →
      (Prune (NewIndex [[97, 98, 99], [97, 98, 100]]) (1 / 2)).2 = 0)) :=
  ⟨by norm_num, prune_spec (NewIndex [[97, 98, 99], [97, 98, 100]]) (1 / 2) (by norm_num)⟩

/-! ### No reachable state binds a key to a non-nil empty list -/

theorem idxGet_sortIndex (idx : Index) (t : T) :
    idxGet (SortIndex idx) t = (idxGet idx t).map sortSlice := by
  induction idx with
  | nil => simp [SortIndex, idxGet]
  | cons e rest ih =>
    by_cases he : e.1 = t
    · simp [SortIndex, idxGet, he]
    · simpa [SortIndex, idxGet, he] using ih

theorem noEmpty_set (idx : Index) (k : T) (v : GoSlice)
    (h : ∀ t w, idxGet idx t = some w → w ≠ some []) (hv : v ≠ some []) :
    ∀ t w, idxGet (idxSet idx k v) t = some w → w ≠ some [] := by
  intro t w hget
  by_cases hkt : k = t
  · subst hkt
    rw [idxGet_set_self] at hget
    rw [← Option.some_inj.mp hget]
    exact hv
  · rw [idxGet_set_ne idx k v t hkt] at hget
    exact h t w hget

theorem noEmpty_erase (idx : Index) (k : T)
    (h : ∀ t w, idxGet idx t = some w → w ≠ some []) :
    ∀ t w, idxGet (idxErase idx k) t = some w → w ≠ some [] := by
  intro t w hget
  by_cases hkt : k = t
  · subst hkt
    rw [idxGet_erase_self] at hget
    exact absurd hget (by simp)
  · rw [idxGet_erase_ne idx k t hkt] at hget
    exact h t w hget

theorem noEmpty_insStep (id : DocID) (idx : Index) (u : T)
    (h : ∀ t w, idxGet idx t = some w → w ≠ some []) :
    ∀ t w, idxGet (insStep id idx u) t = some w → w ≠ some [] := by
  intro t w hget
  by_cases hut : u = t
  · subst hut
    rw [insStep_get_self] at hget
    by_cases hc : lookList idx u = [] ∨ (lookList idx u).getLast? ≠ some id
    · rw [if_pos hc] at hget
      rw [← Option.some_inj.mp hget]
      intro hcon
      have := Option.some_inj.mp hcon
      simp at this
    · rw [if_neg hc] at hget
      exact h u w hget
  · rw [insStep_get_ne id idx u t hut] at hget
    exact h t w hget

theorem noEmpty_foldl_insStep (id : DocID) : ∀ (ts : List T) (idx : Index),
    (∀ t w, idxGet idx t = some w → w ≠ some []) →
    ∀ t w, idxGet (ts.foldl (insStep id) idx) t = some w → w ≠ some [] := by
  intro ts
  induction ts with
  | nil => intro idx h; exact h
  | cons u rest ih =>
    intro idx h
    rw [List.foldl_cons]
    exact ih (insStep id idx u) (noEmpty_insStep id idx u h)

theorem noEmpty_insertTrigrams (idx : Index) (ts : List T) (id : DocID)
    (h : ∀ t w, idxGet idx t = some w → w ≠ some []) :
    ∀ t w, idxGet (InsertTrigrams idx ts id) t = some w → w ≠ some [] := by
  apply noEmpty_set _ _ _ (noEmpty_foldl_insStep id ts idx h)
  intro hcon
  have := Option.some_inj.mp hcon
  simp at this

theorem noEmpty_delStep (id : DocID) (idx : Index) (u : T)
    (h : ∀ t w, idxGet idx t = some w → w ≠ some []) :
    ∀ t w, idxGet (delStep id idx u) t = some w → w ≠ some [] := by
  intro t w hget
  by_cases hut : u = t
  · subst hut
    match hu : idxGet idx u with
    | none =>
      rw [delStep_of_absent id idx u hu] at hget
      exact h u w hget
    | some none =>
      rw [delStep_of_nil id idx u hu] at hget
      exact h u w hget
    | some (some ids) =>
      simp only [delStep, hu] at hget
      by_cases h1 : ids.length = 1 ∧ ids.getD 0 0 = id
      · rw [if_pos h1, idxGet_erase_self] at hget
        exact absurd hget (by simp)
      · rw [if_neg h1] at hget
        by_cases h2 : goSearch ids.length (fun j => id ≤ ids.getD j 0) < ids.length ∧
            ids.getD (goSearch ids.length (fun j => id ≤ ids.getD j 0)) 0 = id
        · rw [if_pos h2, idxGet_set_self] at hget
          have hlen2 : 2 ≤ ids.length := by
            by_contra hcon
            push_neg at hcon
            have hpos : 0 < ids.length := lt_of_le_of_lt (Nat.zero_le _) h2.1
            have hone : ids.length = 1 := by omega
            have hzero : goSearch ids.length (fun j => id ≤ ids.getD j 0) = 0 := by
              have := h2.1
              omega
            have h22 := h2.2
            rw [hzero] at h22
            exact h1 ⟨hone, h22⟩
          rw [← Option.some_inj.mp hget]
          intro hcon
          have hnil := Option.some_inj.mp hcon
          have := List.length_eraseIdx_of_lt h2.1
          rw [hnil] at this
          simp at this
          omega
        · rw [if_neg h2] at hget
          exact h u w hget
  · rw [delStep_get_ne id idx u t hut] at hget
    exact h t w hget

theorem noEmpty_newIndex (docs : List (List Byte)) :
    ∀ t w, idxGet (NewIndex docs) t = some w → w ≠ some [] := by
  intro t w hget
  unfold NewIndex at hget
  by_cases ht : t = tAllDocIDs
  · subst ht
    rw [idxGet_set_self] at hget
    rw [← Option.some_inj.mp hget]
    match docs with
    | [] => simp
    | d :: rest =>
      simp only [List.isEmpty_cons, Bool.false_eq_true, if_false]
      intro hcon
      have := Option.some_inj.mp hcon
      rw [List.range_eq_nil] at this
      simp at this
  · rw [idxGet_set_ne _ _ _ _ (fun hh => ht hh.symm)] at hget
    obtain ⟨l, rfl, hl⟩ := buildDocs_shape docs [] 0
      (fun u v hh => absurd hh (by rw [show idxGet [] u = none from rfl]; simp)) t w hget
    intro hcon
    exact hl (Option.some_inj.mp hcon)

theorem noEmpty_sortIndex (idx : Index)
    (h : ∀ t w, idxGet idx t = some w → w ≠ some []) :
    ∀ t w, idxGet (SortIndex idx) t = some w → w ≠ some [] := by
  intro t w hget
  rw [idxGet_sortIndex] at hget
  match hv : idxGet idx t with
  | none => rw [hv] at hget; exact absurd hget (by simp)
  | some v =>
    rw [hv, Option.map_some'] at hget
    have hvne := h t v hv
    rw [← Option.some_inj.mp hget]
    match v, hvne with
    | none, _ => simp [sortSlice]
    | some l, hvne =>
      simp only [sortSlice, Option.map_some']
      intro hcon
      have hnil := Option.some_inj.mp hcon
      have hperm := List.perm_insertionSort (· ≤ ·) l
      rw [hnil] at hperm
      have := hperm.symm.length_eq
      simp at this
      exact hvne (by rw [this])

theorem noEmpty_pruneWith (idx : Index) (m : ℤ)
    (h : ∀ t w, idxGet idx t = some w → w ≠ some []) :
    ∀ t w, idxGet (pruneWith idx m).1 t = some w → w ≠ some [] := by
  intro t w hget
  have hfst : (pruneWith idx m).1 = idx.map (fun e =>
      if e.1 ≠ tAllDocIDs ∧ m < ((sliceList e.2).length : ℤ) then (e.1, none) else e) := rfl
  rw [hfst, idxGet_map_prune] at hget
  match hv : idxGet idx t with
  | none => rw [hv] at hget; exact absurd hget (by simp)
  | some v =>
    rw [hv, Option.map_some'] at hget
    by_cases hc : t ≠ tAllDocIDs ∧ m < ((sliceList v).length : ℤ)
    · rw [if_pos hc] at hget
      rw [← Option.some_inj.mp hget]
      simp
    · rw [if_neg hc] at hget
      rw [← Option.some_inj.mp hget]
      exact h t v hv

/-- C10: in every index state reachable from `NewIndex` via `Insert`,
`InsertTrigrams`, `Add`, `AddTrigrams`, `Delete`, `Sort` and `Prune`, no
trigram key is bound to a non-nil empty postings list: a present key's value
is either the nil slice (installed only by `Prune`) or a non-empty list,
which is exactly the distinction `Filter`'s `d == nil` test relies on. -/
theorem reachable_no_empty_binding (idx : Index) (h : Reachable idx) :
    ∀ t v, idxGet idx t = some v → v ≠ some [] := by
  induction h with
  | newIndex docs => exact noEmpty_newIndex docs
  | add idx s _ ih => exact noEmpty_insertTrigrams idx _ _ ih
  | addTrigrams idx ts _ ih => exact noEmpty_insertTrigrams idx ts _ ih
  | insert idx s id _ ih => exact noEmpty_insertTrigrams idx _ id ih
  | insertTrigrams idx ts id _ ih => exact noEmpty_insertTrigrams idx ts id ih
  | delete idx s id _ ih =>
    have hfold : ∀ (ts : List T) (jdx : Index),
        (∀ t w, idxGet jdx t = some w → w ≠ some []) →
        ∀ t w, idxGet (ts.foldl (delStep id) jdx) t = some w → w ≠ some [] := by
      intro ts
      induction ts with
      | nil => intro jdx hh; exact hh
      | cons u rest ihts =>
        intro jdx hh
        rw [List.foldl_cons]
        exact ihts (delStep id jdx u) (noEmpty_delStep id jdx u hh)
    exact hfold (ExtractAll s []) idx ih
  | sortIndex idx _ ih => exact noEmpty_sortIndex idx ih
  | prune idx pct _ ih => exact noEmpty_pruneWith idx _ ih

theorem reachable_no_empty_binding_witness :
    Reachable (Prune (NewIndex [[97, 98, 99]]) 0).1 ∧
    idxGet (Prune (NewIndex [[97, 98, 99]]) 0).1 6382179 = some none ∧
    (none : GoSlice) ≠ some [] := by
  have hPrune : Prune (NewIndex [[97, 98, 99]]) 0 = pruneWith (NewIndex [[97, 98, 99]]) 0 := by
    unfold Prune
    norm_num
  refine ⟨Reachable.prune _ 0 (Reachable.newIndex _), ?_, ?_⟩
  · rw [hPrune]
    decide
  · exact reachable_no_empty_binding _ (Reachable.prune _ 0 (Reachable.newIndex _))
      6382179 none (by rw [hPrune]; decide)

end Trigram
